import Mathlib

/-!
Verification of the pushgen push-style generator library.

The Rust source is shallowly embedded: a consumer callback ("sink", the
`output: ErasedFnPointer<T, ValueResult>` / `impl FnMut(T) -> ValueResult`
argument of `Generator::run`) becomes an explicit state-passing function
`σ → α → σ × ValueResult`, and each generator struct becomes a Lean
structure with the same fields; its `run` method becomes a function that
returns the updated generator state, the updated sink state and the
`GeneratorResult`.  `run` is polymorphic in the sink-state type `σ`,
mirroring the fact that the Rust `run` works for every consumer.
-/

namespace Pushgen

/-- `ValueResult` from src/lib.rs: the value-consumption result returned by
the consumer after each value. -/
inductive ValueResult where
  | Stop
  | MoreValues
deriving DecidableEq, Repr

/-- `GeneratorResult` from src/lib.rs: the result of one generator run. -/
inductive GeneratorResult where
  | Stopped
  | Complete
deriving DecidableEq, Repr

/-- A consumer callback with explicit state `σ`: the embedding of the
`output` closure / `ErasedFnPointer<α, ValueResult>` argument of `run`. -/
abbrev Sink (σ α : Type) : Type := σ → α → σ × ValueResult

/-- The type of a generator `run` method over generator-state `g` producing
values of type `α`: for every sink-state type it maps the generator state,
the sink and the initial sink state to the final generator state, final
sink state and the run result. -/
def RunFn (g α : Type) : Type 1 :=
  {σ : Type} → g → Sink σ α → σ → g × σ × GeneratorResult

/-- `SliceGenerator` from src/lib.rs (lines 157-167): a slice plus a
forward index. -/
structure SliceGenerator (α : Type) where
  slice : List α
  index : Nat
deriving DecidableEq, Repr

/-- `SliceGenerator::new` (src/lib.rs line 164). -/
def SliceGenerator.new {α : Type} (slice : List α) : SliceGenerator α :=
  { slice := slice, index := 0 }

/-- The loop body of `SliceGenerator::run` (src/lib.rs lines 177-184):
iterates over the elements still to the right of the cursor (the list
`slice.drop index`), tracking the cursor.  On `Stop` the cursor is
incremented past the delivered element before returning `Stopped`; on
exhaustion the result is `Complete`. -/
def sliceRunAux {α σ : Type} (out : Sink σ α) : List α → Nat → σ → Nat × σ × GeneratorResult
  | [], i, s => (i, s, .Complete)
  | x :: rest, i, s =>
    match out s x with
    | (s', .Stop) => (i + 1, s', .Stopped)
    | (s', .MoreValues) => sliceRunAux out rest (i + 1) s'

/-- `SliceGenerator::run` (src/lib.rs lines 173-186). -/
def SliceGenerator.run {α : Type} : RunFn (SliceGenerator α) α :=
  fun g out s =>
    let r := sliceRunAux out (g.slice.drop g.index) g.index s
    ({ slice := g.slice, index := r.1 }, r.2.1, r.2.2)

/-- `Take` from src/structs/take.rs (lines 4-7). -/
structure Take (g : Type) where
  source : g
  amount_left : Nat
deriving DecidableEq, Repr

/-- The sink installed by `Take::run` (src/structs/take.rs lines 26-35):
decrement the budget, deliver the value, then force `Stop` if the budget
has reached zero. -/
def takeSink {σ α : Type} (out : Sink σ α) : Sink (Nat × σ) α :=
  fun p x =>
    let a := p.1 - 1
    let r := out p.2 x
    ((a, r.1), if a = 0 then .Stop else r.2)

/-- `Take::run` (src/structs/take.rs lines 23-46). -/
def Take.run {g α : Type} (srcRun : RunFn g α) : RunFn (Take g) α :=
  fun t out s =>
    if t.amount_left > 0 then
      let r := srcRun t.source (takeSink out) (t.amount_left, s)
      if r.2.2 = .Complete then
        ({ source := r.1, amount_left := 0 }, r.2.1.2, .Complete)
      else if r.2.1.1 = 0 then
        ({ source := r.1, amount_left := r.2.1.1 }, r.2.1.2, .Complete)
      else
        ({ source := r.1, amount_left := r.2.1.1 }, r.2.1.2, r.2.2)
    else
      (t, s, .Complete)

/-- `Skip` from src/structs/skip.rs (lines 4-7). -/
structure Skip (g : Type) where
  generator : g
  amount : Nat
deriving DecidableEq, Repr

/-- The counting sink installed by `Skip::run` (src/structs/skip.rs lines
25-28): discard the value, decrement the budget and stop once it hits
zero (`(*amount != 0).into()`). -/
def skipSink {α : Type} : Sink Nat α :=
  fun amount _ =>
    let a := amount - 1
    (a, if a ≠ 0 then .MoreValues else .Stop)

/-- `Skip::run` (src/structs/skip.rs lines 23-38). -/
def Skip.run {g α : Type} (srcRun : RunFn g α) : RunFn (Skip g) α :=
  fun sk out s =>
    if sk.amount > 0 then
      let r := srcRun sk.generator skipSink sk.amount
      if r.2.2 = .Complete then
        ({ generator := r.1, amount := r.2.1 }, s, .Complete)
      else if r.2.1 > 0 then
        ({ generator := r.1, amount := r.2.1 }, s, .Stopped)
      else
        let r2 := srcRun r.1 out s
        ({ generator := r2.1, amount := 0 }, r2.2.1, r2.2.2)
    else
      let r2 := srcRun sk.generator out s
      ({ generator := r2.1, amount := sk.amount }, r2.2.1, r2.2.2)

/-- `Chain` from src/structs/chain.rs (lines 4-8). -/
structure Chain (f s : Type) where
  first : f
  second : s
  first_active : Bool
deriving DecidableEq, Repr

/-- `Chain::new` (src/structs/chain.rs lines 12-18). -/
def Chain.new {f s : Type} (first : f) (second : s) : Chain f s :=
  { first := first, second := second, first_active := true }

/-- `Chain::run` (src/structs/chain.rs lines 29-38). -/
def Chain.run {f s α : Type} (fRun : RunFn f α) (sRun : RunFn s α) : RunFn (Chain f s) α :=
  fun c out st =>
    if c.first_active then
      let r := fRun c.first out st
      if r.2.2 = .Stopped then
        ({ first := r.1, second := c.second, first_active := true }, r.2.1, .Stopped)
      else
        let r2 := sRun c.second out r.2.1
        ({ first := r.1, second := r2.1, first_active := false }, r2.2.1, r2.2.2)
    else
      let r2 := sRun c.second out st
      ({ first := c.first, second := r2.1, first_active := false }, r2.2.1, r2.2.2)

/-- `Zip` from src/structs/zip.rs (lines 4-7). -/
structure Zip (l r : Type) where
  left : l
  right : r
deriving DecidableEq, Repr

/-- The probe sink used by `Zip::run` on the right generator
(src/structs/zip.rs lines 34-40): store the first value and request
`Stop` immediately. -/
def zipProbeSink {β : Type} : Sink (Option β) β :=
  fun _ rv => (some rv, .Stop)

/-- The sink installed by `Zip::run` on the left generator
(src/structs/zip.rs lines 28-48): for each left value, probe the right
generator for exactly one value, pair and deliver it; if no right value
was produced, request `Stop` without delivering a partial pair.  The sink
state carries `right_result`, the right generator and the consumer state. -/
def zipLeftSink {r α β σ : Type} (rRun : RunFn r β) (out : Sink σ (α × β)) :
    Sink (GeneratorResult × r × σ) α :=
  fun t left_value =>
    let pr := rRun t.2.1 zipProbeSink none
    match pr.2.1 with
    | some right_value =>
      let o := out t.2.2 (left_value, right_value)
      ((pr.2.2, pr.1, o.1), o.2)
    | none => ((pr.2.2, pr.1, t.2.2), .Stop)

/-- `Zip::run` (src/structs/zip.rs lines 24-54). -/
def Zip.run {l r α β : Type} (lRun : RunFn l α) (rRun : RunFn r β) :
    RunFn (Zip l r) (α × β) :=
  fun z out s =>
    let lr := lRun z.left (zipLeftSink rRun out) (.Stopped, z.right, s)
    if lr.2.2 = .Complete ∨ lr.2.1.1 = .Complete then
      ({ left := lr.1, right := lr.2.1.2.1 }, lr.2.1.2.2, .Complete)
    else
      ({ left := lr.1, right := lr.2.1.2.1 }, lr.2.1.2.2, .Stopped)

/-- `Flatten` from src/structs/flatten.rs (lines 7-14).  The conversion
`IntoGenerator` of the source output into an inner generator is passed
explicitly as `intoGen`. -/
structure Flatten (src ig : Type) where
  source : src
  current_generator : Option ig
deriving DecidableEq, Repr

/-- The sink installed by `Flatten::run` on the outer source
(src/structs/flatten.rs lines 47-54): convert the outer value into a new
inner generator, store it (`set_some`) and run it; an inner `Stopped`
becomes `ValueResult::Stop`, an inner `Complete` requests more outer
values. -/
def flattenSink {ig β α σ : Type} (innerRun : RunFn ig α) (intoGen : β → ig)
    (out : Sink σ α) : Sink (Option ig × σ) β :=
  fun p x =>
    let r := innerRun (intoGen x) out p.2
    ((some r.1, r.2.1), match r.2.2 with
      | .Stopped => .Stop
      | .Complete => .MoreValues)

/-- `Flatten::run` (src/structs/flatten.rs lines 38-56): first resume any
stored inner generator; once it completes, pull outer values, converting
each into a new stored inner generator. -/
def Flatten.run {src ig β α : Type} (srcRun : RunFn src β) (innerRun : RunFn ig α)
    (intoGen : β → ig) : RunFn (Flatten src ig) α :=
  fun f out s =>
    match f.current_generator with
    | some current =>
      let r := innerRun current out s
      if r.2.2 = .Stopped then
        ({ source := f.source, current_generator := some r.1 }, r.2.1, .Stopped)
      else
        let r2 := srcRun f.source (flattenSink innerRun intoGen out) (some r.1, r.2.1)
        ({ source := r2.1, current_generator := r2.2.1.1 }, r2.2.1.2, r2.2.2)
    | none =>
      let r2 := srcRun f.source (flattenSink innerRun intoGen out) (none, s)
      ({ source := r2.1, current_generator := r2.2.1.1 }, r2.2.1.2, r2.2.2)

/-- `Map` from src/structs/map.rs (lines 4-7); the transform is embedded
as a pure function. -/
structure Map (g α β : Type) where
  source : g
  transform : α → β

/-- `Map::run` (src/structs/map.rs lines 28-34). -/
def Map.run {g α β : Type} (srcRun : RunFn g α) : RunFn (Map g α β) β :=
  fun m out s =>
    let r := srcRun m.source (fun s x => out s (m.transform x)) s
    ({ source := r.1, transform := m.transform }, r.2.1, r.2.2)

/-- `Filter` from src/structs/filter.rs (lines 4-7). -/
structure Filter (g α : Type) where
  generator : g
  predicate : α → Bool

/-- `Filter::run` (src/structs/filter.rs lines 31-44): values failing the
predicate are discarded and the source is asked for more values. -/
def Filter.run {g α : Type} (srcRun : RunFn g α) : RunFn (Filter g α) α :=
  fun fl out s =>
    let r := srcRun fl.generator
      (fun s x => if fl.predicate x then out s x else (s, .MoreValues)) s
    ({ generator := r.1, predicate := fl.predicate }, r.2.1, r.2.2)

/-- `FilterMap` from src/structs/filter_map.rs (lines 4-7). -/
structure FilterMap (g α β : Type) where
  source : g
  transform : α → Option β

/-- `FilterMap::run` (src/structs/filter_map.rs lines 28-41). -/
def FilterMap.run {g α β : Type} (srcRun : RunFn g α) : RunFn (FilterMap g α β) β :=
  fun fm out s =>
    let r := srcRun fm.source
      (fun s x => match fm.transform x with
        | some y => out s y
        | none => (s, .MoreValues)) s
    ({ source := r.1, transform := fm.transform }, r.2.1, r.2.2)

/-- `Cloned` from src/structs/cloned.rs (lines 5-7); cloning a value is
the identity in the embedding. -/
structure Cloned (g : Type) where
  source : g
deriving DecidableEq, Repr

/-- `Cloned::run` (src/structs/cloned.rs lines 23-27). -/
def Cloned.run {g α : Type} (srcRun : RunFn g α) : RunFn (Cloned g) α :=
  fun c out s =>
    let r := srcRun c.source (fun s x => out s x) s
    ({ source := r.1 }, r.2.1, r.2.2)

/-- `BoxedGenerator` from src/structs/boxed.rs (lines 5-7). -/
structure BoxedGenerator (g : Type) where
  source : g
deriving DecidableEq, Repr

/-- `BoxedGenerator::run` (src/structs/boxed.rs lines 22-24). -/
def BoxedGenerator.run {g α : Type} (srcRun : RunFn g α) : RunFn (BoxedGenerator g) α :=
  fun b out s =>
    let r := srcRun b.source out s
    ({ source := r.1 }, r.2.1, r.2.2)

/-! ### The canonical sequence generator and the generator contract -/

/-- The canonical resumable producer of a value sequence: delivers the
elements of its list in order, removes an element once delivered, returns
`Stopped` when the sink answers `Stop` and `Complete` on exhaustion.
Used to express the generator contract of §4.1 of the spec. -/
def listRun {α : Type} : RunFn (List α) α :=
  fun l out s =>
    match l with
    | [] => ([], s, .Complete)
    | x :: rest =>
      match out s x with
      | (s', .Stop) => (rest, s', .Stopped)
      | (s', .MoreValues) => listRun rest out s'

/-- Generator states reachable from `x` by exactly `n` further `run`
calls with arbitrary sinks. -/
def ReachN {g α : Type} (run : RunFn g α) : Nat → g → g → Prop
  | 0, x, y => x = y
  | n + 1, x, y => ∃ z, ReachN run n x z ∧
      ∃ (σ : Type) (out : Sink σ α) (s : σ), y = (run z out s).1

/-- Generator states reachable from `x` by any number of `run` calls with
arbitrary sinks. -/
def Reach {g α : Type} (run : RunFn g α) (x y : g) : Prop :=
  ∃ n, ReachN run n x y

/-- A state on which a single `run` call, with any sink, returns
`Complete` and hands back the sink state unchanged (so the sink is never
invoked in any observable way). -/
def DeadAt {g α : Type} (run : RunFn g α) (y : g) : Prop :=
  ∀ {σ : Type} (out : Sink σ α) (s : σ),
    (run y out s).2.1 = s ∧ (run y out s).2.2 = .Complete

/-- A dead generator state: every present or future `run` call returns
`Complete` without invoking the sink. -/
def Dead {g α : Type} (run : RunFn g α) (x : g) : Prop :=
  ∀ y, Reach run x y → DeadAt run y

/-- Terminal idempotence (spec §3 and §8): whenever a run returns
`Complete`, the resulting state is dead. -/
def CompleteSticky {g α : Type} (run : RunFn g α) : Prop :=
  ∀ (x : g) {σ : Type} (out : Sink σ α) (s : σ),
    (run x out s).2.2 = .Complete → Dead run (run x out s).1

/-- `R` is a simulation between the states of `run` and the canonical
sequence generator: related states produce the same sink interactions and
run results, and stay related. -/
def IsSim {g α : Type} (run : RunFn g α) (R : g → List α → Prop) : Prop :=
  ∀ x l, R x l → ∀ {σ : Type} (out : Sink σ α) (s : σ),
    (run x out s).2.1 = (listRun l out s).2.1 ∧
    (run x out s).2.2 = (listRun l out s).2.2 ∧
    R (run x out s).1 (listRun l out s).1

/-- A contract-abiding generator state: it behaves exactly like the
canonical resumable producer of some value sequence. -/
def WellBehaved {g α : Type} (run : RunFn g α) (x : g) : Prop :=
  ∃ R l, IsSim run R ∧ R x l

/-! ### Concrete sinks used by the testable properties -/

/-- A sink that always requests more values and records every delivered
value (the `for_each` consumer of §4.7). -/
def moreSink {α : Type} : Sink (List α) α :=
  fun log x => (log ++ [x], .MoreValues)

/-- A sink that records every delivered value and returns `Stop` exactly
on the k-th delivered value, where k is the initial countdown. -/
def stopAtSink {α : Type} : Sink (Nat × List α) α :=
  fun p x => ((p.1 - 1, p.2 ++ [x]), if p.1 ≤ 1 then .Stop else .MoreValues)

/-- A deterministic history sink: records every delivered value and asks
`f` on the full delivery history whether to stop; every consumer decision
pattern can be expressed this way. -/
def histSink {α : Type} (f : List α → ValueResult) : Sink (List α) α :=
  fun log x => (log ++ [x], f (log ++ [x]))

/-- Reference consumption of a value sequence by the history sink:
returns how many values were consumed, the final history and the run
result. -/
def consume {α : Type} (f : List α → ValueResult) : List α → List α → Nat × List α × GeneratorResult
  | log, [] => (0, log, .Complete)
  | log, x :: rest =>
    match f (log ++ [x]) with
    | .Stop => (1, log ++ [x], .Stopped)
    | .MoreValues =>
      let r := consume f (log ++ [x]) rest
      (r.1 + 1, r.2.1, r.2.2)

/-- The resume loop of §8: repeatedly `run` with the history sink until
the generator reports `Complete` (with enough fuel). -/
def runLoop {g α : Type} (run : RunFn g α) (f : List α → ValueResult) :
    Nat → g → List α → g × List α × GeneratorResult
  | 0, x, log => (x, log, .Stopped)
  | fuel + 1, x, log =>
    let r := run x (histSink f) log
    match r.2.2 with
    | .Complete => (r.1, r.2.1, .Complete)
    | .Stopped => runLoop run f fuel r.1 r.2.1

/-- An adversarial generator used to probe the adaptor contracts: on its
first run it delivers the value 42 and then returns `Stopped` regardless
of the sink's answer; on every later run it returns `Stopped` immediately
without invoking the sink.  It never returns `Complete`, so it satisfies
terminal idempotence vacuously, but it violates the fuller run contract
(it stops without the sink having requested a stop). -/
def badRun : RunFn Nat Nat :=
  fun n out s =>
    match n with
    | 0 => (1, (out s 42).1, .Stopped)
    | _ + 1 => (n, s, .Stopped)

/-- Run a generator once per stop-decision function in the list, each run
with the history sink, threading generator state and the delivery history;
the sequence is aborted (`none`) if a run other than after the list ends
returns `Complete`, so a `some` result certifies a sequence of runs that
all ended `Stopped`. -/
def runSeqStopped {g α : Type} (run : RunFn g α) :
    List (List α → ValueResult) → g → List α → Option (g × List α)
  | [], x, log => some (x, log)
  | f :: fs, x, log =>
    match (run x (histSink f) log).2.2 with
    | .Complete => none
    | .Stopped => runSeqStopped run fs (run x (histSink f) log).1 (run x (histSink f) log).2.1

/-- The values a slice generator has not yet delivered. -/
def sliceRem {α : Type} (g : SliceGenerator α) : List α := g.slice.drop g.index

/-- The values an optional stored inner slice generator has not yet
delivered. -/
def sliceRemOpt {α : Type} : Option (SliceGenerator α) → List α
  | none => []
  | some c => sliceRem c

/-- The flatten pipeline of the resume-loop property: a slice source of
inner lists, each converted into a fresh slice generator
(`IntoGenerator` for a slice). -/
def flattenSlices {α : Type} :
    RunFn (Flatten (SliceGenerator (List α)) (SliceGenerator α)) α :=
  Flatten.run SliceGenerator.run SliceGenerator.run SliceGenerator.new

/-- The values a flatten-over-slices pipeline has not yet delivered: the
rest of the stored inner generator followed by the concatenation of the
outer lists not yet converted. -/
def flatRem {α : Type} (F : Flatten (SliceGenerator (List α)) (SliceGenerator α)) : List α :=
  sliceRemOpt F.current_generator ++ (F.source.slice.drop F.source.index).flatten

/-- Modelled from the spec: the two-cursor random-access slice source of
spec paragraph 4.4 and of the `ReverseGenerator` reverse contract
(src/traits/generator.rs lines 121-141; only the trait is declared in the
source tree, no two-cursor slice implementation ships in src/).  Front
cursor for forward `run`, back cursor (exclusive) for `run_back`; the
sequence is exhausted when the cursors meet. -/
structure SliceGenerator2 (α : Type) where
  slice : List α
  front : Nat
  back : Nat
deriving DecidableEq, Repr

/-- Modelled from the spec: a fresh two-cursor slice generator over the
whole slice — front cursor at 0, back cursor at the length. -/
def SliceGenerator2.new {α : Type} (slice : List α) : SliceGenerator2 α :=
  { slice := slice, front := 0, back := slice.length }

/-- Modelled from the spec: forward `run` of the two-cursor source —
deliver the elements between the cursors (the list
`(slice.take back).drop front`) from the front cursor upward, advancing
the front cursor past each delivered element; `Complete` when the
cursors meet.  The loop body is the forward `sliceRunAux`. -/
def SliceGenerator2.run {α : Type} : RunFn (SliceGenerator2 α) α :=
  fun g out s =>
    let r := sliceRunAux out ((g.slice.take g.back).drop g.front) g.front s
    ({ slice := g.slice, front := r.1, back := g.back }, r.2.1, r.2.2)

/-- Modelled from the spec: the loop body of reverse `run_back` —
iterates the between-cursor segment in reverse order, decrementing the
back cursor past each delivered element; on `Stop` the cursor has moved
below the delivered element, on exhaustion the result is `Complete`. -/
def slice2RunBackAux {α σ : Type} (out : Sink σ α) :
    List α → Nat → σ → Nat × σ × GeneratorResult
  | [], b, s => (b, s, .Complete)
  | x :: rest, b, s =>
    match out s x with
    | (s', .Stop) => (b - 1, s', .Stopped)
    | (s', .MoreValues) => slice2RunBackAux out rest (b - 1) s'

/-- Modelled from the spec: reverse `run_back` of the two-cursor source —
deliver the elements between the cursors from the back cursor downward,
decrementing the back cursor; `Complete` when the cursors meet. -/
def SliceGenerator2.runBack {α : Type} : RunFn (SliceGenerator2 α) α :=
  fun g out s =>
    let r := slice2RunBackAux out ((g.slice.take g.back).drop g.front).reverse g.back s
    ({ slice := g.slice, front := g.front, back := r.1 }, r.2.1, r.2.2)

/-! ## Basic lemmas about the slice generator and the canonical model -/

theorem sliceRunAux_more {α : Type} (l : List α) : ∀ (i : Nat) (log : List α),
    sliceRunAux moreSink l i log = (i + l.length, log ++ l, .Complete) := by
  induction l with
  | nil => intro i log; simp [sliceRunAux]
  | cons x rest ih =>
    intro i log
    simp only [sliceRunAux, moreSink, ih (i + 1) (log ++ [x])]
    refine Prod.ext ?_ (Prod.ext ?_ rfl)
    · simp; omega
    · simp

theorem sliceRunAux_stopAt {α : Type} (l : List α) : ∀ (k i : Nat) (log : List α),
    1 ≤ k → k ≤ l.length →
    sliceRunAux stopAtSink l i (k, log) = (i + k, (0, log ++ l.take k), .Stopped) := by
  induction l with
  | nil => intro k i log hk1 hk2; simp at hk2; omega
  | cons x rest ih =>
    intro k i log hk1 hk2
    by_cases h1 : k ≤ 1
    · have hk : k = 1 := le_antisymm h1 hk1
      subst hk
      simp [sliceRunAux, stopAtSink]
    · have h2 : 2 ≤ k := by omega
      have hlen : k - 1 ≤ rest.length := by simp at hk2; omega
      simp only [sliceRunAux, stopAtSink, if_neg h1]
      rw [ih (k - 1) (i + 1) (log ++ [x]) (by omega) hlen]
      have hx : (x :: rest).take k = x :: rest.take (k - 1) := by
        cases k with
        | zero => omega
        | succ m => simp
      refine Prod.ext ?_ (Prod.ext (Prod.ext rfl ?_) rfl)
      · simp; omega
      · rw [hx]; simp

theorem SliceGenerator_run_eq {α σ : Type} (g : SliceGenerator α) (out : Sink σ α) (s : σ) :
    SliceGenerator.run g out s =
      ({ slice := g.slice, index := (sliceRunAux out (g.slice.drop g.index) g.index s).1 },
        (sliceRunAux out (g.slice.drop g.index) g.index s).2.1,
        (sliceRunAux out (g.slice.drop g.index) g.index s).2.2) := rfl

/-- `takeSink` composed with the always-continue recording sink is exactly
the stop-on-k-th recording sink. -/
theorem takeSink_moreSink {α : Type} : takeSink (moreSink (α := α)) = stopAtSink := by
  funext p x
  simp only [takeSink, moreSink, stopAtSink]
  rcases p with ⟨a, log⟩
  by_cases h : a ≤ 1
  · simp [Nat.sub_eq_zero_of_le h, h]
  · have : ¬ a - 1 = 0 := by omega
    simp [this, h]

theorem sliceRunAux_stopAt_long {α : Type} (l : List α) : ∀ (k i : Nat) (log : List α),
    l.length < k →
    sliceRunAux stopAtSink l i (k, log) = (i + l.length, (k - l.length, log ++ l), .Complete) := by
  induction l with
  | nil => intro k i log _; simp [sliceRunAux]
  | cons x rest ih =>
    intro k i log hk
    have h1 : ¬ k ≤ 1 := by simp at hk; omega
    simp only [sliceRunAux, stopAtSink, if_neg h1]
    rw [ih (k - 1) (i + 1) (log ++ [x]) (by simp at hk ⊢; omega)]
    refine Prod.ext ?_ (Prod.ext (Prod.ext ?_ ?_) rfl)
    · simp; omega
    · simp; omega
    · simp

theorem sliceRunAux_takeStop {α : Type} (l : List α) : ∀ (a k i : Nat) (log : List α),
    1 ≤ k → k < a → k ≤ l.length →
    sliceRunAux (takeSink stopAtSink) l i (a, k, log) =
      (i + k, (a - k, 0, log ++ l.take k), .Stopped) := by
  induction l with
  | nil => intro a k i log hk1 hka hk2; simp at hk2; omega
  | cons x rest ih =>
    intro a k i log hk1 hka hk2
    by_cases h1 : k ≤ 1
    · have hk : k = 1 := le_antisymm h1 hk1
      subst hk
      have ha : ¬ a - 1 = 0 := by omega
      simp [sliceRunAux, takeSink, stopAtSink, ha]
    · have h2 : 2 ≤ k := by omega
      have hne : ¬ a - 1 = 0 := by omega
      simp only [sliceRunAux, takeSink, stopAtSink, if_neg h1, if_neg hne]
      rw [ih (a - 1) (k - 1) (i + 1) (log ++ [x]) (by omega) (by omega)
        (by simp at hk2; omega)]
      have hx : (x :: rest).take k = x :: rest.take (k - 1) := by
        cases k with
        | zero => omega
        | succ m => simp
      rw [hx]
      simp only [Prod.mk.injEq]
      simp
      omega

theorem sliceRunAux_skip_short {α : Type} (l : List α) : ∀ (k i : Nat),
    1 ≤ k → k ≤ l.length →
    sliceRunAux skipSink l i k = (i + k, 0, .Stopped) := by
  induction l with
  | nil => intro k i hk1 hk2; simp at hk2; omega
  | cons x rest ih =>
    intro k i hk1 hk2
    by_cases h1 : k ≤ 1
    · have hk : k = 1 := le_antisymm h1 hk1
      subst hk
      simp [sliceRunAux, skipSink]
    · have hne : k - 1 ≠ 0 := by omega
      simp only [sliceRunAux, skipSink, ne_eq, hne, not_false_eq_true, if_pos]
      rw [ih (k - 1) (i + 1) (by omega) (by simp at hk2; omega)]
      refine Prod.ext ?_ rfl
      simp; omega

theorem sliceRunAux_skip_long {α : Type} (l : List α) : ∀ (k i : Nat),
    l.length < k →
    sliceRunAux skipSink l i k = (i + l.length, k - l.length, .Complete) := by
  induction l with
  | nil => intro k i _; simp [sliceRunAux]
  | cons x rest ih =>
    intro k i hk
    have hne : k - 1 ≠ 0 := by simp at hk; omega
    simp only [sliceRunAux, skipSink, ne_eq, hne, not_false_eq_true, if_pos]
    rw [ih (k - 1) (i + 1) (by simp at hk; omega)]
    refine Prod.ext ?_ (Prod.ext ?_ rfl)
    · simp; omega
    · simp; omega

/-! ## Claim theorems -/

/-- C1: for every slice `S` and split index `k` with `1 ≤ k ≤ len S`,
running the fresh slice generator with a sink that stops exactly on the
k-th delivered value delivers the prefix of length `k`, leaves the cursor
at `k` and returns `Stopped`; running the resulting generator again with
an always-continue sink delivers exactly the suffix `S.drop k` and
returns `Complete`; prefix and suffix recompose `S` exactly, so no
element is duplicated or lost and the element that triggered `Stop` is
not re-delivered. -/
theorem slice_no_loss_resumability {α : Type} (S : List α) (k : Nat)
    (hk1 : 1 ≤ k) (hk2 : k ≤ S.length) :
    SliceGenerator.run (SliceGenerator.new S) stopAtSink (k, ([] : List α)) =
      ({ slice := S, index := k }, (0, S.take k), .Stopped) ∧
    (S.take k).length = k ∧
    SliceGenerator.run ({ slice := S, index := k } : SliceGenerator α) moreSink [] =
      ({ slice := S, index := S.length }, S.drop k, .Complete) ∧
    S.take k ++ S.drop k = S := by
  refine ⟨?_, List.length_take_of_le hk2, ?_, List.take_append_drop k S⟩
  · rw [SliceGenerator_run_eq]
    simp only [SliceGenerator.new, List.drop_zero]
    rw [sliceRunAux_stopAt S k 0 [] hk1 hk2]
    simp
  · rw [SliceGenerator_run_eq]
    simp only []
    rw [sliceRunAux_more (S.drop k) k []]
    simp
    omega

/-- Witness for C1 at `S = [1,2,3]`, `k = 2`. -/
theorem slice_no_loss_resumability_witness :
    (1 ≤ 2 ∧ 2 ≤ ([1, 2, 3] : List Nat).length) ∧
    (SliceGenerator.run (SliceGenerator.new [1, 2, 3]) stopAtSink (2, ([] : List Nat)) =
      ({ slice := [1, 2, 3], index := 2 }, (0, [1, 2]), .Stopped) ∧
    (([1, 2, 3] : List Nat).take 2).length = 2 ∧
    SliceGenerator.run ({ slice := [1, 2, 3], index := 2 } : SliceGenerator Nat) moreSink [] =
      ({ slice := [1, 2, 3], index := 3 }, [3], .Complete) ∧
    ([1, 2, 3] : List Nat).take 2 ++ ([1, 2, 3] : List Nat).drop 2 = [1, 2, 3]) :=
  ⟨⟨by decide, by decide⟩, slice_no_loss_resumability [1, 2, 3] 2 (by decide) (by decide)⟩

/-- C3: `take(n)` over a slice delivers exactly the first `min n (len S)`
values in order with result `Complete` (the delivered list is `S.take n`
and the final cursor is `min n (len S)`); a run stopped by the consumer
after `j < n` deliveries keeps the remaining budget `n - j` and the next
run delivers exactly the rest of the first `n` values; once the budget is
zero every further run returns `Complete` immediately, with the sink and
the source untouched, whatever data the source still has. -/
theorem take_budget_spec {α : Type} (S' : List α) (m : Nat)
    (S : List α) (n j : Nat) (hj1 : 1 ≤ j) (hj2 : j < n) (hj3 : j ≤ S.length)
    (g : Type) (srcRun : RunFn g α) (x : g) (σ : Type) (out : Sink σ α) (s : σ) :
    Take.run SliceGenerator.run ⟨SliceGenerator.new S', m⟩ moreSink [] =
      (⟨⟨S', min m S'.length⟩, 0⟩, S'.take m, .Complete) ∧
    Take.run SliceGenerator.run ⟨SliceGenerator.new S, n⟩ stopAtSink (j, []) =
      (⟨⟨S, j⟩, n - j⟩, (0, S.take j), .Stopped) ∧
    Take.run SliceGenerator.run ⟨⟨S, j⟩, n - j⟩ moreSink [] =
      (⟨⟨S, min n S.length⟩, 0⟩, (S.take n).drop j, .Complete) ∧
    Take.run srcRun ⟨x, 0⟩ out s = (⟨x, 0⟩, s, .Complete) := by
  have hn : 0 < n := by omega
  refine ⟨?_, ?_, ?_, rfl⟩
  · -- (a) full run with the always-continue sink
    rcases Nat.eq_zero_or_pos m with hm | hm
    · subst hm
      simp [Take.run, SliceGenerator.new]
    · simp only [Take.run, hm, if_pos, gt_iff_lt, takeSink_moreSink,
        SliceGenerator_run_eq, SliceGenerator.new, List.drop_zero]
      rcases le_or_lt m S'.length with hms | hms
      · rw [sliceRunAux_stopAt S' m 0 [] hm hms]
        simp [min_eq_left hms]
      · rw [sliceRunAux_stopAt_long S' m 0 [] hms]
        simp [min_eq_right (le_of_lt hms), List.take_of_length_le (le_of_lt hms)]
  · -- (b1) consumer stop after j deliveries
    simp only [Take.run, hn, if_pos, gt_iff_lt, SliceGenerator_run_eq,
      SliceGenerator.new, List.drop_zero]
    rw [sliceRunAux_takeStop S n j 0 [] hj1 hj2 hj3]
    have h1 : ¬ ((0 : Nat) + j, ((n - j, 0, [] ++ S.take j) : Nat × Nat × List α),
        GeneratorResult.Stopped).2.2 = GeneratorResult.Complete := by simp
    have h2 : ¬ n - j = 0 := by omega
    simp [h2]
  · -- (b2) resumption delivers the rest of the first n values
    have hnj : 0 < n - j := by omega
    simp only [Take.run, hnj, if_pos, gt_iff_lt, takeSink_moreSink,
      SliceGenerator_run_eq]
    rcases le_or_lt n S.length with hns | hns
    · have hlen : n - j ≤ (S.drop j).length := by simp; omega
      rw [sliceRunAux_stopAt (S.drop j) (n - j) j [] hnj hlen]
      have hidx : j + (n - j) = n := by omega
      rw [List.drop_take]
      simp [hidx, min_eq_left hns]
    · have hlen : (S.drop j).length < n - j := by simp; omega
      rw [sliceRunAux_stopAt_long (S.drop j) (n - j) j [] hlen]
      have hidx : j + (S.drop j).length = S.length := by simp; omega
      have htk : S.take n = S := List.take_of_length_le (le_of_lt hns)
      rw [htk]
      simp [hidx, min_eq_right (le_of_lt hns)]
      omega

/-- Witness for C3 at `S' = [1,2,3,4,5]`, `m = 2`, `S = [1,2,3,4,5]`,
`n = 4`, `j = 2`, and a zero-budget take over a slice source. -/
theorem take_budget_spec_witness :
    Take.run SliceGenerator.run ⟨SliceGenerator.new [1, 2, 3, 4, 5], 2⟩ moreSink [] =
      (⟨⟨[1, 2, 3, 4, 5], min 2 ([1, 2, 3, 4, 5] : List Nat).length⟩, 0⟩,
        ([1, 2, 3, 4, 5] : List Nat).take 2, .Complete) ∧
    Take.run SliceGenerator.run ⟨SliceGenerator.new [1, 2, 3, 4, 5], 4⟩ stopAtSink (2, []) =
      (⟨⟨[1, 2, 3, 4, 5], 2⟩, 4 - 2⟩, (0, ([1, 2, 3, 4, 5] : List Nat).take 2), .Stopped) ∧
    Take.run SliceGenerator.run ⟨⟨[1, 2, 3, 4, 5], 2⟩, 4 - 2⟩ moreSink [] =
      (⟨⟨[1, 2, 3, 4, 5], min 4 ([1, 2, 3, 4, 5] : List Nat).length⟩, 0⟩,
        (([1, 2, 3, 4, 5] : List Nat).take 4).drop 2, .Complete) ∧
    Take.run SliceGenerator.run ⟨SliceGenerator.new [9, 9, 9], 0⟩ moreSink [] =
      (⟨SliceGenerator.new [9, 9, 9], 0⟩, [], .Complete) :=
  take_budget_spec [1, 2, 3, 4, 5] 2 [1, 2, 3, 4, 5] 4 2 (by decide) (by decide) (by decide)
    (SliceGenerator Nat) SliceGenerator.run (SliceGenerator.new [9, 9, 9])
    (List Nat) moreSink []

/-- C10: if the wrapped source returns `Complete` while the take budget is
still positive, `Take::run` zeroes the budget and returns `Complete`; and
from a zero-budget state every run returns `Complete` immediately with the
generator state, the sink state and the source untouched. -/
theorem take_source_complete_zeroes_budget {g α : Type} (srcRun : RunFn g α) (t : Take g)
    (σ : Type) (out : Sink σ α) (s : σ)
    (h0 : 0 < t.amount_left)
    (hC : (srcRun t.source (takeSink out) (t.amount_left, s)).2.2 = .Complete)
    (σ' : Type) (out' : Sink σ' α) (s' : σ') :
    Take.run srcRun t out s =
      (⟨(srcRun t.source (takeSink out) (t.amount_left, s)).1, 0⟩,
        (srcRun t.source (takeSink out) (t.amount_left, s)).2.1.2, .Complete) ∧
    Take.run srcRun ⟨(srcRun t.source (takeSink out) (t.amount_left, s)).1, 0⟩ out' s' =
      (⟨(srcRun t.source (takeSink out) (t.amount_left, s)).1, 0⟩, s', .Complete) := by
  constructor
  · simp [Take.run, h0, hC]
  · rfl

/-- Witness for C10: `take(5)` over the slice `[1,2]`, whose source
completes with budget 3 still left. -/
theorem take_source_complete_zeroes_budget_witness :
    Take.run SliceGenerator.run ⟨SliceGenerator.new [1, 2], 5⟩ moreSink [] =
      (⟨(SliceGenerator.run (SliceGenerator.new [1, 2]) (takeSink moreSink) (5, [])).1, 0⟩,
        (SliceGenerator.run (SliceGenerator.new [1, 2]) (takeSink moreSink) (5, [])).2.1.2,
        .Complete) ∧
    Take.run SliceGenerator.run
        ⟨(SliceGenerator.run (SliceGenerator.new [1, 2]) (takeSink moreSink) (5, [])).1, 0⟩
        moreSink [] =
      (⟨(SliceGenerator.run (SliceGenerator.new [1, 2]) (takeSink moreSink) (5, [])).1, 0⟩,
        [], .Complete) :=
  take_source_complete_zeroes_budget SliceGenerator.run ⟨SliceGenerator.new [1, 2], 5⟩
    (List Nat) moreSink [] (by decide) (by decide) (List Nat) moreSink []

/-- C4: `skip(n)` over a slice delivers exactly `S.drop n` with result
`Complete` (nothing is delivered until `n` source values have been
discarded, and `skip(n)` for `n ≥ len S` delivers nothing), keeping the
undischarged budget `n - len S`; if the source returns `Stopped` while
the budget is still positive, skip returns `Stopped`, delivers nothing
and retains the remaining budget; if the source returns `Complete` during
the skip phase, skip returns `Complete` having delivered nothing; with a
zero budget every value passes through to the consumer unchanged. -/
theorem skip_budget_spec {α : Type} (S : List α) (n : Nat)
    (g1 : Type) (srcRun1 : RunFn g1 α) (sk1 : Skip g1) (σ1 : Type) (out1 : Sink σ1 α) (s1 : σ1)
    (hb0 : 0 < sk1.amount)
    (hbS : (srcRun1 sk1.generator skipSink sk1.amount).2.2 = .Stopped)
    (hb1 : 0 < (srcRun1 sk1.generator skipSink sk1.amount).2.1)
    (g2 : Type) (srcRun2 : RunFn g2 α) (sk2 : Skip g2) (σ2 : Type) (out2 : Sink σ2 α) (s2 : σ2)
    (hc0 : 0 < sk2.amount)
    (hcC : (srcRun2 sk2.generator skipSink sk2.amount).2.2 = .Complete)
    (g3 : Type) (srcRun3 : RunFn g3 α) (x3 : g3) (σ3 : Type) (out3 : Sink σ3 α) (s3 : σ3) :
    Skip.run SliceGenerator.run ⟨SliceGenerator.new S, n⟩ moreSink [] =
      (⟨⟨S, S.length⟩, n - S.length⟩, S.drop n, .Complete) ∧
    Skip.run srcRun1 sk1 out1 s1 =
      (⟨(srcRun1 sk1.generator skipSink sk1.amount).1,
        (srcRun1 sk1.generator skipSink sk1.amount).2.1⟩, s1, .Stopped) ∧
    Skip.run srcRun2 sk2 out2 s2 =
      (⟨(srcRun2 sk2.generator skipSink sk2.amount).1,
        (srcRun2 sk2.generator skipSink sk2.amount).2.1⟩, s2, .Complete) ∧
    Skip.run srcRun3 ⟨x3, 0⟩ out3 s3 =
      (⟨(srcRun3 x3 out3 s3).1, 0⟩, (srcRun3 x3 out3 s3).2.1, (srcRun3 x3 out3 s3).2.2) := by
  refine ⟨?_, ?_, ?_, rfl⟩
  · -- (a) full run with the always-continue sink
    rcases Nat.eq_zero_or_pos n with hn | hn
    · subst hn
      simp only [Skip.run, gt_iff_lt, lt_irrefl, if_false, SliceGenerator_run_eq,
        SliceGenerator.new, List.drop_zero]
      rw [sliceRunAux_more S 0 []]
      simp
    · simp only [Skip.run, hn, if_pos, gt_iff_lt, SliceGenerator_run_eq,
        SliceGenerator.new, List.drop_zero]
      rcases le_or_lt n S.length with hns | hns
      · rw [sliceRunAux_skip_short S n 0 hn hns]
        have h2 : ¬ (((0 : Nat) + n, (0 : Nat), GeneratorResult.Stopped)).2.2
            = GeneratorResult.Complete := by simp
        simp only [h2, if_false, lt_irrefl, SliceGenerator_run_eq]
        rw [sliceRunAux_more (S.drop (0 + n)) (0 + n) []]
        have : n - S.length = 0 := by omega
        simp [this]
        omega
      · rw [sliceRunAux_skip_long S n 0 hns]
        have hd : S.drop n = [] := List.drop_eq_nil_of_le (le_of_lt hns)
        simp [hd]
  · -- (b) spontaneous source stop keeps the remaining budget
    have hne : (srcRun1 sk1.generator skipSink sk1.amount).2.2 ≠ .Complete := by
      rw [hbS]; intro h; cases h
    simp [Skip.run, hb0, hbS, hne, hb1]
  · -- (c) source Complete during the skip phase delivers nothing
    simp [Skip.run, hc0, hcC]

/-- Witness for C4 at `S = [1,2,3,4,5]`, `n = 2`; the spontaneous-stop
source is the adversarial generator, the completing source a short slice. -/
theorem skip_budget_spec_witness :
    Skip.run SliceGenerator.run ⟨SliceGenerator.new [1, 2, 3, 4, 5], 2⟩ moreSink [] =
      (⟨⟨[1, 2, 3, 4, 5], ([1, 2, 3, 4, 5] : List Nat).length⟩,
        2 - ([1, 2, 3, 4, 5] : List Nat).length⟩,
        ([1, 2, 3, 4, 5] : List Nat).drop 2, .Complete) ∧
    Skip.run badRun ⟨0, 3⟩ moreSink [] =
      (⟨(badRun 0 skipSink 3).1, (badRun 0 skipSink 3).2.1⟩, [], .Stopped) ∧
    Skip.run SliceGenerator.run ⟨SliceGenerator.new [7], 3⟩ moreSink [] =
      (⟨(SliceGenerator.run (SliceGenerator.new [7]) skipSink 3).1,
        (SliceGenerator.run (SliceGenerator.new [7]) skipSink 3).2.1⟩, [], .Complete) ∧
    Skip.run SliceGenerator.run ⟨SliceGenerator.new [4, 5], 0⟩ moreSink [] =
      (⟨(SliceGenerator.run (SliceGenerator.new [4, 5]) moreSink []).1, 0⟩,
        (SliceGenerator.run (SliceGenerator.new [4, 5]) moreSink []).2.1,
        (SliceGenerator.run (SliceGenerator.new [4, 5]) moreSink []).2.2) :=
  skip_budget_spec [1, 2, 3, 4, 5] 2
    Nat badRun ⟨0, 3⟩ (List Nat) moreSink [] (by decide) (by decide) (by decide)
    (SliceGenerator Nat) SliceGenerator.run ⟨SliceGenerator.new [7], 3⟩
    (List Nat) moreSink [] (by decide) (by decide)
    (SliceGenerator Nat) SliceGenerator.run (SliceGenerator.new [4, 5])
    (List Nat) moreSink []

/-! ## Reachability, dead states and the simulation framework -/

theorem reach_refl {g α : Type} (run : RunFn g α) (x : g) : Reach run x x := ⟨0, rfl⟩

theorem reach_tail {g α : Type} (run : RunFn g α) {x y : g} {σ : Type}
    (out : Sink σ α) (s : σ) (h : Reach run x y) : Reach run x (run y out s).1 := by
  obtain ⟨n, hn⟩ := h
  exact ⟨n + 1, y, hn, σ, out, s, rfl⟩

theorem reachN_trans {g α : Type} (run : RunFn g α) {x y z : g} (m : Nat) :
    ∀ n, ReachN run m x y → ReachN run n y z → ReachN run (m + n) x z := by
  intro n
  induction n generalizing z with
  | zero => intro hm hn; cases hn; exact hm
  | succ k ih =>
    intro hm hn
    obtain ⟨w, hw, σ, out, s, rfl⟩ := hn
    exact ⟨w, ih hm hw, σ, out, s, rfl⟩

theorem reach_trans {g α : Type} (run : RunFn g α) {x y z : g}
    (h1 : Reach run x y) (h2 : Reach run y z) : Reach run x z := by
  obtain ⟨m, hm⟩ := h1
  obtain ⟨n, hn⟩ := h2
  exact ⟨m + n, reachN_trans run m n hm hn⟩

/-- To show a state dead it is enough to exhibit an invariant containing
it that forces a `Complete` no-sink-effect run and is preserved by runs. -/
theorem dead_of_invariant {g α : Type} (run : RunFn g α) (P : g → Prop) (x : g)
    (hx : P x)
    (hstep : ∀ y, P y → DeadAt run y ∧
      ∀ (σ : Type) (out : Sink σ α) (s : σ), P ((run y out s).1)) :
    Dead run x := by
  have hPreach : ∀ n y, ReachN run n x y → P y := by
    intro n
    induction n with
    | zero => intro y h; cases h; exact hx
    | succ k ih =>
      intro y hy
      obtain ⟨z, hz, σ, out, s, rfl⟩ := hy
      exact (hstep z (ih z hz)).2 σ out s
  intro y hy
  obtain ⟨n, hn⟩ := hy
  exact (hstep y (hPreach n y hn)).1

theorem dead_at {g α : Type} {run : RunFn g α} {x : g} (h : Dead run x) :
    DeadAt run x := h x (reach_refl run x)

theorem dead_step {g α : Type} {run : RunFn g α} {x : g} (h : Dead run x)
    {σ : Type} (out : Sink σ α) (s : σ) : Dead run (run x out s).1 :=
  fun y hy => h y (reach_trans run (reach_tail run out s (reach_refl run x)) hy)

theorem listRun_complete {α : Type} (l : List α) : ∀ {σ : Type} (out : Sink σ α) (s : σ),
    (listRun l out s).2.2 = .Complete → (listRun l out s).1 = [] := by
  induction l with
  | nil => intro σ out s _; rfl
  | cons x rest ih =>
    intro σ out s h
    rcases ho : out s x with ⟨s', v⟩
    cases v with
    | Stop => rw [listRun, ho] at h ⊢; cases h
    | MoreValues => rw [listRun, ho] at h ⊢; exact ih out s' h

theorem listRun_more {α : Type} (l : List α) : ∀ (log : List α),
    listRun l moreSink log = ([], log ++ l, .Complete) := by
  induction l with
  | nil => intro log; simp [listRun]
  | cons x rest ih =>
    intro log
    rw [listRun]
    simp only [moreSink]
    rw [ih (log ++ [x])]
    simp

/-- Any property of the sink state preserved by every sink call is
preserved by a whole canonical run. -/
theorem listRun_sink_inv {α σ : Type} (out : Sink σ α) (P : σ → Prop)
    (hout : ∀ s x, P s → P ((out s x).1)) :
    ∀ (l : List α) (s : σ), P s → P ((listRun l out s).2.1) := by
  intro l
  induction l with
  | nil => intro s hs; exact hs
  | cons x rest ih =>
    intro s hs
    rcases ho : out s x with ⟨s', v⟩
    have hs' : P s' := by have := hout s x hs; rw [ho] at this; exact this
    cases v with
    | Stop => rw [listRun, ho]; exact hs'
    | MoreValues => rw [listRun, ho]; exact ih s' hs'

/-- When a canonical run completes, the final sink state is either the
initial one (no value delivered) or the state produced by a sink call that
answered `MoreValues`. -/
theorem listRun_complete_final {α σ : Type} (out : Sink σ α) :
    ∀ (l : List α) (s : σ), (listRun l out s).2.2 = .Complete →
      (listRun l out s).2.1 = s ∨
      ∃ s₀ x, (out s₀ x).2 = .MoreValues ∧ (listRun l out s).2.1 = (out s₀ x).1 := by
  intro l
  induction l with
  | nil => intro s _; left; rfl
  | cons x rest ih =>
    intro s h
    rcases ho : out s x with ⟨s', v⟩
    cases v with
    | Stop => rw [listRun, ho] at h; cases h
    | MoreValues =>
      rw [listRun, ho] at h ⊢
      rcases ih s' h with h1 | ⟨s₀, x₀, h2, h3⟩
      · right
        exact ⟨s, x, by rw [ho], by rw [h1, ho]⟩
      · right
        exact ⟨s₀, x₀, h2, h3⟩

theorem sim_nil_dead {g α : Type} {run : RunFn g α} {R : g → List α → Prop}
    (hsim : IsSim run R) {x : g} (hR : R x []) : Dead run x := by
  refine dead_of_invariant run (fun y => R y []) x hR ?_
  intro y hy
  constructor
  · intro σ out s
    have h := hsim y [] hy out s
    exact ⟨h.1, h.2.1⟩
  · intro σ out s
    exact (hsim y [] hy out s).2.2

theorem sim_complete_dead {g α : Type} {run : RunFn g α} {R : g → List α → Prop}
    (hsim : IsSim run R) {x : g} {l : List α} (hR : R x l)
    {σ : Type} (out : Sink σ α) (s : σ)
    (hc : (run x out s).2.2 = .Complete) : Dead run (run x out s).1 := by
  have h := hsim x l hR out s
  have hlc : (listRun l out s).2.2 = .Complete := by rw [← h.2.1]; exact hc
  have hnil : (listRun l out s).1 = [] := listRun_complete l out s hlc
  have hR' := h.2.2
  rw [hnil] at hR'
  exact sim_nil_dead hsim hR'

theorem wellBehaved_sticky {g α : Type} {run : RunFn g α} {x : g}
    (h : WellBehaved run x) {σ : Type} (out : Sink σ α) (s : σ)
    (hc : (run x out s).2.2 = .Complete) : Dead run (run x out s).1 := by
  obtain ⟨R, l, hsim, hR⟩ := h
  exact sim_complete_dead hsim hR out s hc

theorem wellBehaved_step {g α : Type} {run : RunFn g α} {x : g}
    (h : WellBehaved run x) {σ : Type} (out : Sink σ α) (s : σ) :
    WellBehaved run (run x out s).1 := by
  obtain ⟨R, l, hsim, hR⟩ := h
  exact ⟨R, (listRun l out s).1, hsim, (hsim x l hR out s).2.2⟩

theorem sliceRunAux_cons_stop {α σ : Type} {out : Sink σ α} {x : α} {rest : List α}
    {i : Nat} {s s' : σ} (ho : out s x = (s', .Stop)) :
    sliceRunAux out (x :: rest) i s = (i + 1, s', .Stopped) := by
  rw [sliceRunAux, ho]

theorem sliceRunAux_cons_more {α σ : Type} {out : Sink σ α} {x : α} {rest : List α}
    {i : Nat} {s s' : σ} (ho : out s x = (s', .MoreValues)) :
    sliceRunAux out (x :: rest) i s = sliceRunAux out rest (i + 1) s' := by
  rw [sliceRunAux, ho]

theorem listRun_cons_stop {α σ : Type} {out : Sink σ α} {x : α} {rest : List α}
    {s s' : σ} (ho : out s x = (s', .Stop)) :
    listRun (x :: rest) out s = (rest, s', .Stopped) := by
  rw [listRun, ho]

theorem listRun_cons_more {α σ : Type} {out : Sink σ α} {x : α} {rest : List α}
    {s s' : σ} (ho : out s x = (s', .MoreValues)) :
    listRun (x :: rest) out s = listRun rest out s' := by
  rw [listRun, ho]

/-- The slice generator runs in lockstep with the canonical generator on
the not-yet-delivered part of the slice. -/
theorem sliceRunAux_listRun {α σ : Type} (out : Sink σ α) :
    ∀ (l : List α) (i : Nat) (s : σ), ∃ c,
      sliceRunAux out l i s = (i + c, (listRun l out s).2.1, (listRun l out s).2.2) ∧
      (listRun l out s).1 = l.drop c := by
  intro l
  induction l with
  | nil => intro i s; exact ⟨0, rfl, rfl⟩
  | cons x rest ih =>
    intro i s
    rcases ho : out s x with ⟨s', v⟩
    cases v with
    | Stop =>
      refine ⟨1, ?_, ?_⟩
      · rw [sliceRunAux_cons_stop ho, listRun_cons_stop ho]
      · rw [listRun_cons_stop ho]; rfl
    | MoreValues =>
      obtain ⟨c, hc1, hc2⟩ := ih (i + 1) s'
      refine ⟨c + 1, ?_, ?_⟩
      · rw [sliceRunAux_cons_more ho, listRun_cons_more ho, hc1]
        refine Prod.ext ?_ rfl
        simp; omega
      · rw [listRun_cons_more ho, hc2]
        rfl

theorem slice_sim {α : Type} :
    IsSim (SliceGenerator.run (α := α)) (fun g l => l = g.slice.drop g.index) := by
  intro g l hR σ out s
  obtain ⟨c, hc1, hc2⟩ := sliceRunAux_listRun out (g.slice.drop g.index) g.index s
  subst hR
  dsimp only
  rw [SliceGenerator_run_eq, hc1]
  refine ⟨rfl, rfl, ?_⟩
  simp only [hc2]
  rw [List.drop_drop]

theorem slice_wellBehaved {α : Type} (x : SliceGenerator α) :
    WellBehaved SliceGenerator.run x :=
  ⟨fun g l => l = g.slice.drop g.index, x.slice.drop x.index, slice_sim, rfl⟩

theorem slice_completeSticky {α : Type} : CompleteSticky (SliceGenerator.run (α := α)) := by
  intro x σ out s hc
  exact wellBehaved_sticky (slice_wellBehaved x) out s hc

theorem badRun_no_complete {σ : Type} (out : Sink σ Nat) (s : σ) (n : Nat) :
    (badRun n out s).2.2 ≠ .Complete := by
  cases n with
  | zero => intro h; cases h
  | succ m => intro h; cases h

theorem badRun_completeSticky : CompleteSticky badRun := by
  intro x σ out s hc
  exact absurd hc (badRun_no_complete out s x)

/-! ## Terminal idempotence of the adaptors -/

theorem take_zero_dead {g α : Type} (srcRun : RunFn g α) (t : Take g)
    (h : t.amount_left = 0) : Dead (Take.run srcRun) t := by
  refine dead_of_invariant _ (fun y => y.amount_left = 0) t h ?_
  intro y hy
  have hrun : ∀ (σ : Type) (out : Sink σ α) (s : σ),
      Take.run srcRun y out s = (y, s, .Complete) := by
    intro σ out s
    simp [Take.run, hy]
  constructor
  · intro σ out s
    show (Take.run srcRun y out s).2.1 = s ∧ (Take.run srcRun y out s).2.2 = .Complete
    rw [hrun σ out s]
    exact ⟨rfl, rfl⟩
  · intro σ out s
    show ((Take.run srcRun y out s).1).amount_left = 0
    rw [hrun σ out s]
    exact hy

theorem take_complete_dead {g α : Type} (srcRun : RunFn g α) (t : Take g)
    {σ : Type} (out : Sink σ α) (s : σ)
    (hc : (Take.run srcRun t out s).2.2 = .Complete) :
    Dead (Take.run srcRun) (Take.run srcRun t out s).1 := by
  refine take_zero_dead srcRun _ ?_
  rcases Nat.eq_zero_or_pos t.amount_left with h0 | h0
  · simp [Take.run, h0]
  · by_cases hcc : (srcRun t.source (takeSink out) (t.amount_left, s)).2.2 = .Complete
    · simp [Take.run, h0, hcc]
    · by_cases hz : (srcRun t.source (takeSink out) (t.amount_left, s)).2.1.1 = 0
      · simp [Take.run, h0, hcc, hz]
      · exfalso
        simp only [Take.run, h0, gt_iff_lt, if_pos, if_neg hcc, if_neg hz] at hc
        rcases hr : (srcRun t.source (takeSink out) (t.amount_left, s)).2.2 with _ | _
        · rw [hr] at hc; cases hc
        · exact hcc hr

theorem skip_dead_of_generator_dead {g α : Type} (srcRun : RunFn g α) (sk : Skip g)
    (h : Dead srcRun sk.generator) : Dead (Skip.run srcRun) sk := by
  refine dead_of_invariant _ (fun y => Dead srcRun y.generator) sk h ?_
  intro y hy
  have hstep : ∀ (σ : Type) (out : Sink σ α) (s : σ),
      Skip.run srcRun y out s =
        (if 0 < y.amount then
          ({ generator := (srcRun y.generator skipSink y.amount).1, amount := y.amount }, s,
            .Complete)
        else
          ({ generator := (srcRun y.generator out s).1, amount := y.amount }, s, .Complete)) := by
    intro σ out s
    rcases Nat.eq_zero_or_pos y.amount with h0 | h0
    · have hd := dead_at hy out s
      simp [Skip.run, h0, hd.1, hd.2]
    · have hd := dead_at hy skipSink y.amount
      simp [Skip.run, h0, hd.1, hd.2]
  constructor
  · intro σ out s
    show (Skip.run srcRun y out s).2.1 = s ∧ (Skip.run srcRun y out s).2.2 = .Complete
    rw [hstep σ out s]
    rcases Nat.eq_zero_or_pos y.amount with h0 | h0 <;> simp [h0]
  · intro σ out s
    show Dead srcRun ((Skip.run srcRun y out s).1).generator
    rw [hstep σ out s]
    rcases Nat.eq_zero_or_pos y.amount with h0 | h0
    · simp only [h0, lt_irrefl, if_false]
      exact dead_step hy out s
    · simp only [h0, if_pos]
      exact dead_step hy skipSink y.amount

theorem skip_complete_dead {g α : Type} (srcRun : RunFn g α) (sk : Skip g)
    {σ : Type} (out : Sink σ α) (s : σ)
    (hwb : WellBehaved srcRun sk.generator)
    (hc : (Skip.run srcRun sk out s).2.2 = .Complete) :
    Dead (Skip.run srcRun) (Skip.run srcRun sk out s).1 := by
  refine skip_dead_of_generator_dead srcRun _ ?_
  rcases Nat.eq_zero_or_pos sk.amount with h0 | h0
  · simp only [Skip.run, h0, lt_irrefl, gt_iff_lt, if_false]
    have hc2 : (srcRun sk.generator out s).2.2 = .Complete := by
      simpa [Skip.run, h0] using hc
    exact wellBehaved_sticky hwb out s hc2
  · by_cases hcc : (srcRun sk.generator skipSink sk.amount).2.2 = .Complete
    · simp only [Skip.run, h0, gt_iff_lt, if_pos, hcc, if_true]
      exact wellBehaved_sticky hwb skipSink sk.amount hcc
    · by_cases hz : 0 < (srcRun sk.generator skipSink sk.amount).2.1
      · exfalso
        simp only [Skip.run, h0, gt_iff_lt, if_pos, if_neg hcc, hz, if_true] at hc
        cases hc
      · simp only [Skip.run, h0, gt_iff_lt, if_pos, if_neg hcc, hz, if_false]
        have hwb' : WellBehaved srcRun (srcRun sk.generator skipSink sk.amount).1 :=
          wellBehaved_step hwb skipSink sk.amount
        have hc2 : (srcRun (srcRun sk.generator skipSink sk.amount).1 out s).2.2 = .Complete := by
          simpa [Skip.run, h0, hcc, hz] using hc
        exact wellBehaved_sticky hwb' out s hc2

theorem chain_dead_of_second_dead {f s α : Type} (fRun : RunFn f α) (sRun : RunFn s α)
    (c : Chain f s) (h1 : c.first_active = false) (h2 : Dead sRun c.second) :
    Dead (Chain.run fRun sRun) c := by
  refine dead_of_invariant _ (fun y => y.first_active = false ∧ Dead sRun y.second) c
    ⟨h1, h2⟩ ?_
  intro y hy
  have hstep : ∀ (σ : Type) (out : Sink σ α) (st : σ),
      Chain.run fRun sRun y out st =
        ({ first := y.first, second := (sRun y.second out st).1, first_active := false },
          st, .Complete) := by
    intro σ out st
    have hd := dead_at hy.2 out st
    simp [Chain.run, hy.1, hd.1, hd.2]
  constructor
  · intro σ out st
    show (Chain.run fRun sRun y out st).2.1 = st ∧
      (Chain.run fRun sRun y out st).2.2 = .Complete
    rw [hstep σ out st]
    exact ⟨rfl, rfl⟩
  · intro σ out st
    show ((Chain.run fRun sRun y out st).1).first_active = false ∧
      Dead sRun ((Chain.run fRun sRun y out st).1).second
    rw [hstep σ out st]
    exact ⟨rfl, dead_step hy.2 out st⟩

theorem chain_complete_dead {f s α : Type} (fRun : RunFn f α) (sRun : RunFn s α)
    (c : Chain f s) {σ : Type} (out : Sink σ α) (st : σ)
    (hwb : WellBehaved sRun c.second)
    (hc : (Chain.run fRun sRun c out st).2.2 = .Complete) :
    Dead (Chain.run fRun sRun) (Chain.run fRun sRun c out st).1 := by
  by_cases hfa : c.first_active
  · by_cases hstop : (fRun c.first out st).2.2 = .Stopped
    · exfalso
      simp only [Chain.run, hfa, if_pos, hstop, if_true] at hc
      cases hc
    · simp only [Chain.run, hfa, if_pos, if_neg hstop] at hc ⊢
      refine chain_dead_of_second_dead fRun sRun _ rfl ?_
      exact wellBehaved_sticky hwb out (fRun c.first out st).2.1 hc
  · simp only [Chain.run, hfa, if_neg, Bool.false_eq_true, if_false] at hc ⊢
    refine chain_dead_of_second_dead fRun sRun _ rfl ?_
    exact wellBehaved_sticky hwb out st hc

theorem map_dead_of_source_dead {g α β : Type} (srcRun : RunFn g α) (m : Map g α β)
    (h : Dead srcRun m.source) : Dead (Map.run srcRun) m := by
  refine dead_of_invariant _ (fun y => Dead srcRun y.source) m h ?_
  intro y hy
  constructor
  · intro σ out s
    show (Map.run srcRun y out s).2.1 = s ∧ (Map.run srcRun y out s).2.2 = .Complete
    have hd := dead_at hy (fun s x => out s (y.transform x)) s
    exact ⟨hd.1, hd.2⟩
  · intro σ out s
    show Dead srcRun ((Map.run srcRun y out s).1).source
    exact dead_step hy (fun s x => out s (y.transform x)) s

theorem map_complete_dead {g α β : Type} (srcRun : RunFn g α) (m : Map g α β)
    {σ : Type} (out : Sink σ β) (s : σ)
    (hwb : WellBehaved srcRun m.source)
    (hc : (Map.run srcRun m out s).2.2 = .Complete) :
    Dead (Map.run srcRun) (Map.run srcRun m out s).1 := by
  refine map_dead_of_source_dead srcRun _ ?_
  exact wellBehaved_sticky hwb (fun s x => out s (m.transform x)) s hc

theorem filter_dead_of_source_dead {g α : Type} (srcRun : RunFn g α) (fl : Filter g α)
    (h : Dead srcRun fl.generator) : Dead (Filter.run srcRun) fl := by
  refine dead_of_invariant _ (fun y => Dead srcRun y.generator) fl h ?_
  intro y hy
  constructor
  · intro σ out s
    show (Filter.run srcRun y out s).2.1 = s ∧ (Filter.run srcRun y out s).2.2 = .Complete
    have hd := dead_at hy (fun s x => if y.predicate x then out s x else (s, .MoreValues)) s
    exact ⟨hd.1, hd.2⟩
  · intro σ out s
    show Dead srcRun ((Filter.run srcRun y out s).1).generator
    exact dead_step hy (fun s x => if y.predicate x then out s x else (s, .MoreValues)) s

theorem filter_complete_dead {g α : Type} (srcRun : RunFn g α) (fl : Filter g α)
    {σ : Type} (out : Sink σ α) (s : σ)
    (hwb : WellBehaved srcRun fl.generator)
    (hc : (Filter.run srcRun fl out s).2.2 = .Complete) :
    Dead (Filter.run srcRun) (Filter.run srcRun fl out s).1 := by
  refine filter_dead_of_source_dead srcRun _ ?_
  exact wellBehaved_sticky hwb
    (fun s x => if fl.predicate x then out s x else (s, .MoreValues)) s hc

theorem filterMap_dead_of_source_dead {g α β : Type} (srcRun : RunFn g α)
    (fm : FilterMap g α β) (h : Dead srcRun fm.source) : Dead (FilterMap.run srcRun) fm := by
  refine dead_of_invariant _ (fun y => Dead srcRun y.source) fm h ?_
  intro y hy
  constructor
  · intro σ out s
    show (FilterMap.run srcRun y out s).2.1 = s ∧
      (FilterMap.run srcRun y out s).2.2 = .Complete
    have hd := dead_at hy
      (fun s x => match y.transform x with
        | some v => out s v
        | none => (s, .MoreValues)) s
    exact ⟨hd.1, hd.2⟩
  · intro σ out s
    show Dead srcRun ((FilterMap.run srcRun y out s).1).source
    exact dead_step hy
      (fun s x => match y.transform x with
        | some v => out s v
        | none => (s, .MoreValues)) s

theorem filterMap_complete_dead {g α β : Type} (srcRun : RunFn g α) (fm : FilterMap g α β)
    {σ : Type} (out : Sink σ β) (s : σ)
    (hwb : WellBehaved srcRun fm.source)
    (hc : (FilterMap.run srcRun fm out s).2.2 = .Complete) :
    Dead (FilterMap.run srcRun) (FilterMap.run srcRun fm out s).1 := by
  refine filterMap_dead_of_source_dead srcRun _ ?_
  exact wellBehaved_sticky hwb
    (fun s x => match fm.transform x with
      | some v => out s v
      | none => (s, .MoreValues)) s hc

theorem cloned_dead_of_source_dead {g α : Type} (srcRun : RunFn g α) (c : Cloned g)
    (h : Dead srcRun c.source) : Dead (Cloned.run srcRun) c := by
  refine dead_of_invariant _ (fun y => Dead srcRun y.source) c h ?_
  intro y hy
  constructor
  · intro σ out s
    show (Cloned.run srcRun y out s).2.1 = s ∧ (Cloned.run srcRun y out s).2.2 = .Complete
    have hd := dead_at hy (fun s x => out s x) s
    exact ⟨hd.1, hd.2⟩
  · intro σ out s
    show Dead srcRun ((Cloned.run srcRun y out s).1).source
    exact dead_step hy (fun s x => out s x) s

theorem cloned_complete_dead {g α : Type} (srcRun : RunFn g α) (c : Cloned g)
    {σ : Type} (out : Sink σ α) (s : σ)
    (hwb : WellBehaved srcRun c.source)
    (hc : (Cloned.run srcRun c out s).2.2 = .Complete) :
    Dead (Cloned.run srcRun) (Cloned.run srcRun c out s).1 := by
  refine cloned_dead_of_source_dead srcRun _ ?_
  exact wellBehaved_sticky hwb (fun s x => out s x) s hc

theorem boxed_dead_of_source_dead {g α : Type} (srcRun : RunFn g α) (b : BoxedGenerator g)
    (h : Dead srcRun b.source) : Dead (BoxedGenerator.run srcRun) b := by
  refine dead_of_invariant _ (fun y => Dead srcRun y.source) b h ?_
  intro y hy
  constructor
  · intro σ out s
    show (BoxedGenerator.run srcRun y out s).2.1 = s ∧
      (BoxedGenerator.run srcRun y out s).2.2 = .Complete
    have hd := dead_at hy out s
    exact ⟨hd.1, hd.2⟩
  · intro σ out s
    show Dead srcRun ((BoxedGenerator.run srcRun y out s).1).source
    exact dead_step hy out s

theorem boxed_complete_dead {g α : Type} (srcRun : RunFn g α) (b : BoxedGenerator g)
    {σ : Type} (out : Sink σ α) (s : σ)
    (hwb : WellBehaved srcRun b.source)
    (hc : (BoxedGenerator.run srcRun b out s).2.2 = .Complete) :
    Dead (BoxedGenerator.run srcRun) (BoxedGenerator.run srcRun b out s).1 := by
  refine boxed_dead_of_source_dead srcRun _ ?_
  exact wellBehaved_sticky hwb out s hc

theorem Zip_run_eq {l r α β : Type} (lRun : RunFn l α) (rRun : RunFn r β)
    (z : Zip l r) {σ : Type} (out : Sink σ (α × β)) (s : σ) :
    Zip.run lRun rRun z out s =
      (if (lRun z.left (zipLeftSink rRun out) (.Stopped, z.right, s)).2.2 = .Complete ∨
          (lRun z.left (zipLeftSink rRun out) (.Stopped, z.right, s)).2.1.1 = .Complete then
        ({ left := (lRun z.left (zipLeftSink rRun out) (.Stopped, z.right, s)).1,
           right := (lRun z.left (zipLeftSink rRun out) (.Stopped, z.right, s)).2.1.2.1 },
          (lRun z.left (zipLeftSink rRun out) (.Stopped, z.right, s)).2.1.2.2, .Complete)
      else
        ({ left := (lRun z.left (zipLeftSink rRun out) (.Stopped, z.right, s)).1,
           right := (lRun z.left (zipLeftSink rRun out) (.Stopped, z.right, s)).2.1.2.1 },
          (lRun z.left (zipLeftSink rRun out) (.Stopped, z.right, s)).2.1.2.2, .Stopped)) :=
  rfl

/-- Running the canonical generator against zip's left sink with a dead
right generator never touches the consumer state: every attempted pairing
probes the dead right side, finds no value and aborts. -/
theorem zip_sink_dead_inv {r α β σ : Type} (rRun : RunFn r β) (out : Sink σ (α × β))
    (L : List α) (rr : GeneratorResult) (r0 : r) (s : σ) (hd : Dead rRun r0) :
    (listRun L (zipLeftSink rRun out) (rr, r0, s)).2.1.2.2 = s ∧
    Dead rRun (listRun L (zipLeftSink rRun out) (rr, r0, s)).2.1.2.1 ∧
    ((listRun L (zipLeftSink rRun out) (rr, r0, s)).2.2 = .Complete ∨
      (listRun L (zipLeftSink rRun out) (rr, r0, s)).2.1.1 = .Complete) := by
  cases L with
  | nil => exact ⟨rfl, hd, Or.inl rfl⟩
  | cons x rest =>
    have hpr := dead_at hd zipProbeSink (none : Option β)
    have hsink : zipLeftSink rRun out (rr, r0, s) x =
        ((.Complete, (rRun r0 zipProbeSink none).1, s), .Stop) := by
      simp [zipLeftSink, hpr.1, hpr.2]
    rw [listRun_cons_stop hsink]
    exact ⟨rfl, dead_step hd zipProbeSink none, Or.inr rfl⟩

theorem zip_dead_of_invariant {l r α β : Type} (lRun : RunFn l α) (rRun : RunFn r β)
    (z : Zip l r)
    (hP : Dead lRun z.left ∨ (WellBehaved lRun z.left ∧ Dead rRun z.right)) :
    Dead (Zip.run lRun rRun) z := by
  refine dead_of_invariant _
    (fun y => Dead lRun y.left ∨ (WellBehaved lRun y.left ∧ Dead rRun y.right)) z hP ?_
  intro y hy
  have key : ∀ (σ : Type) (out : Sink σ (α × β)) (s : σ),
      (Zip.run lRun rRun y out s).2.1 = s ∧ (Zip.run lRun rRun y out s).2.2 = .Complete ∧
      (Dead lRun ((Zip.run lRun rRun y out s).1).left ∨
        (WellBehaved lRun ((Zip.run lRun rRun y out s).1).left ∧
          Dead rRun ((Zip.run lRun rRun y out s).1).right)) := by
    intro σ out s
    rcases hy with hdl | ⟨hwl, hdr⟩
    · have hd := dead_at hdl (zipLeftSink rRun out)
        ((.Stopped, y.right, s) : GeneratorResult × r × σ)
      rw [Zip_run_eq]
      rw [if_pos (Or.inl hd.2)]
      rw [hd.1]
      exact ⟨rfl, rfl, Or.inl (dead_step hdl (zipLeftSink rRun out) (.Stopped, y.right, s))⟩
    · obtain ⟨R, L, hsim, hR⟩ := hwl
      have hsimr := hsim y.left L hR (zipLeftSink rRun out) (.Stopped, y.right, s)
      have hzs := zip_sink_dead_inv rRun out L .Stopped y.right s hdr
      have hcond : (lRun y.left (zipLeftSink rRun out) (.Stopped, y.right, s)).2.2 = .Complete ∨
          (lRun y.left (zipLeftSink rRun out) (.Stopped, y.right, s)).2.1.1 = .Complete := by
        rcases hzs.2.2 with h | h
        · exact Or.inl (hsimr.2.1.trans h)
        · refine Or.inr ?_
          rw [hsimr.1]
          exact h
      rw [Zip_run_eq]
      rw [if_pos hcond]
      refine ⟨?_, rfl, Or.inr ⟨?_, ?_⟩⟩
      · rw [hsimr.1]
        exact hzs.1
      · exact ⟨R, (listRun L (zipLeftSink rRun out) (.Stopped, y.right, s)).1, hsim, hsimr.2.2⟩
      · show Dead rRun (lRun y.left (zipLeftSink rRun out) (.Stopped, y.right, s)).2.1.2.1
        rw [hsimr.1]
        exact hzs.2.1
  constructor
  · intro σ out s
    show (Zip.run lRun rRun y out s).2.1 = s ∧ (Zip.run lRun rRun y out s).2.2 = .Complete
    exact ⟨(key σ out s).1, (key σ out s).2.1⟩
  · intro σ out s
    show Dead lRun ((Zip.run lRun rRun y out s).1).left ∨
      (WellBehaved lRun ((Zip.run lRun rRun y out s).1).left ∧
        Dead rRun ((Zip.run lRun rRun y out s).1).right)
    exact (key σ out s).2.2

theorem zip_complete_dead {l r α β : Type} (lRun : RunFn l α) (rRun : RunFn r β)
    (z : Zip l r) {σ : Type} (out : Sink σ (α × β)) (s : σ)
    (hwl : WellBehaved lRun z.left) (hwr : WellBehaved rRun z.right)
    (hc : (Zip.run lRun rRun z out s).2.2 = .Complete) :
    Dead (Zip.run lRun rRun) (Zip.run lRun rRun z out s).1 := by
  refine zip_dead_of_invariant lRun rRun _ ?_
  obtain ⟨R, L, hsim, hR⟩ := hwl
  have hsimr := hsim z.left L hR (zipLeftSink rRun out) (.Stopped, z.right, s)
  have hpres : ∀ (t : GeneratorResult × r × σ) (x : α),
      (WellBehaved rRun t.2.1 ∧ (t.1 = .Complete → Dead rRun t.2.1)) →
      (WellBehaved rRun ((zipLeftSink rRun out t x).1).2.1 ∧
        (((zipLeftSink rRun out t x).1).1 = .Complete →
          Dead rRun ((zipLeftSink rRun out t x).1).2.1)) := by
    intro t x ht
    rcases hm : (rRun t.2.1 zipProbeSink none).2.1 with _ | rv
    · have heq : (zipLeftSink rRun out t x).1 =
          ((rRun t.2.1 zipProbeSink none).2.2, (rRun t.2.1 zipProbeSink none).1, t.2.2) := by
        simp [zipLeftSink, hm]
      rw [heq]
      exact ⟨wellBehaved_step ht.1 zipProbeSink none,
        fun h => wellBehaved_sticky ht.1 zipProbeSink none h⟩
    · have heq : (zipLeftSink rRun out t x).1 =
          ((rRun t.2.1 zipProbeSink none).2.2, (rRun t.2.1 zipProbeSink none).1,
            (out t.2.2 (x, rv)).1) := by
        simp [zipLeftSink, hm]
      rw [heq]
      exact ⟨wellBehaved_step ht.1 zipProbeSink none,
        fun h => wellBehaved_sticky ht.1 zipProbeSink none h⟩
  have hQ := listRun_sink_inv (zipLeftSink rRun out)
    (fun t => WellBehaved rRun t.2.1 ∧ (t.1 = .Complete → Dead rRun t.2.1)) hpres
    L (.Stopped, z.right, s) ⟨hwr, fun h => by cases h⟩
  by_cases hcond : ((lRun z.left (zipLeftSink rRun out) (.Stopped, z.right, s)).2.2 = .Complete ∨
      (lRun z.left (zipLeftSink rRun out) (.Stopped, z.right, s)).2.1.1 = .Complete)
  · rcases hcond with hl | hr2
    · rw [Zip_run_eq, if_pos (Or.inl hl)]
      exact Or.inl (sim_complete_dead hsim hR (zipLeftSink rRun out) (.Stopped, z.right, s) hl)
    · rw [Zip_run_eq, if_pos (Or.inr hr2)]
      refine Or.inr ⟨?_, ?_⟩
      · show WellBehaved lRun (lRun z.left (zipLeftSink rRun out) (.Stopped, z.right, s)).1
        exact ⟨R, (listRun L (zipLeftSink rRun out) (.Stopped, z.right, s)).1, hsim, hsimr.2.2⟩
      · show Dead rRun (lRun z.left (zipLeftSink rRun out) (.Stopped, z.right, s)).2.1.2.1
        rw [hsimr.1]
        refine hQ.2 ?_
        rw [← hsimr.1]
        exact hr2
  · exfalso
    rw [Zip_run_eq, if_neg hcond] at hc
    cases hc

theorem Flatten_run_none {src ig β α : Type} (srcRun : RunFn src β) (innerRun : RunFn ig α)
    (intoGen : β → ig) (f : Flatten src ig) {σ : Type} (out : Sink σ α) (s : σ)
    (h : f.current_generator = none) :
    Flatten.run srcRun innerRun intoGen f out s =
      ({ source := (srcRun f.source (flattenSink innerRun intoGen out) (none, s)).1,
         current_generator :=
           (srcRun f.source (flattenSink innerRun intoGen out) (none, s)).2.1.1 },
        (srcRun f.source (flattenSink innerRun intoGen out) (none, s)).2.1.2,
        (srcRun f.source (flattenSink innerRun intoGen out) (none, s)).2.2) := by
  obtain ⟨src0, cur⟩ := f
  cases h
  rfl

theorem Flatten_run_some {src ig β α : Type} (srcRun : RunFn src β) (innerRun : RunFn ig α)
    (intoGen : β → ig) (f : Flatten src ig) {σ : Type} (out : Sink σ α) (s : σ)
    (c : ig) (h : f.current_generator = some c) :
    Flatten.run srcRun innerRun intoGen f out s =
      (if (innerRun c out s).2.2 = .Stopped then
        ({ source := f.source, current_generator := some (innerRun c out s).1 },
          (innerRun c out s).2.1, .Stopped)
      else
        ({ source := (srcRun f.source (flattenSink innerRun intoGen out)
              (some (innerRun c out s).1, (innerRun c out s).2.1)).1,
           current_generator := (srcRun f.source (flattenSink innerRun intoGen out)
              (some (innerRun c out s).1, (innerRun c out s).2.1)).2.1.1 },
          (srcRun f.source (flattenSink innerRun intoGen out)
              (some (innerRun c out s).1, (innerRun c out s).2.1)).2.1.2,
          (srcRun f.source (flattenSink innerRun intoGen out)
              (some (innerRun c out s).1, (innerRun c out s).2.1)).2.2)) := by
  obtain ⟨src0, cur⟩ := f
  cases h
  rfl

theorem flattenSink_fst {ig β α σ : Type} (innerRun : RunFn ig α) (intoGen : β → ig)
    (out : Sink σ α) (p : Option ig × σ) (x : β) :
    (flattenSink innerRun intoGen out p x).1 =
      (some (innerRun (intoGen x) out p.2).1, (innerRun (intoGen x) out p.2).2.1) := rfl

theorem flattenSink_more {ig β α σ : Type} (innerRun : RunFn ig α) (intoGen : β → ig)
    (out : Sink σ α) (p : Option ig × σ) (x : β)
    (h : (flattenSink innerRun intoGen out p x).2 = .MoreValues) :
    (innerRun (intoGen x) out p.2).2.2 = .Complete := by
  rcases hr : (innerRun (intoGen x) out p.2).2.2 with _ | _
  · exfalso
    have : (flattenSink innerRun intoGen out p x).2 = .Stop := by
      simp [flattenSink, hr]
    rw [this] at h
    cases h
  · rfl

theorem flatten_dead_of_invariant {src ig β α : Type} (srcRun : RunFn src β)
    (innerRun : RunFn ig α) (intoGen : β → ig) (f : Flatten src ig)
    (hP : Dead srcRun f.source ∧ ∀ c, f.current_generator = some c → Dead innerRun c) :
    Dead (Flatten.run srcRun innerRun intoGen) f := by
  refine dead_of_invariant _
    (fun y => Dead srcRun y.source ∧ ∀ c, y.current_generator = some c → Dead innerRun c)
    f hP ?_
  intro y hy
  have key : ∀ (σ : Type) (out : Sink σ α) (s : σ),
      (Flatten.run srcRun innerRun intoGen y out s).2.1 = s ∧
      (Flatten.run srcRun innerRun intoGen y out s).2.2 = .Complete ∧
      Dead srcRun ((Flatten.run srcRun innerRun intoGen y out s).1).source ∧
      (∀ c, ((Flatten.run srcRun innerRun intoGen y out s).1).current_generator = some c →
        Dead innerRun c) := by
    intro σ out s
    rcases hcur : y.current_generator with _ | c
    · have hd := dead_at hy.1 (flattenSink innerRun intoGen out) ((none, s) : Option ig × σ)
      rw [Flatten_run_none srcRun innerRun intoGen y out s hcur]
      rw [hd.1]
      refine ⟨rfl, hd.2, ?_, ?_⟩
      · exact dead_step hy.1 (flattenSink innerRun intoGen out) (none, s)
      · intro c hc
        cases hc
    · have hdc := hy.2 c hcur
      have hri := dead_at hdc out s
      have hnstop : ¬ (innerRun c out s).2.2 = .Stopped := by
        rw [hri.2]
        intro h
        cases h
      rw [Flatten_run_some srcRun innerRun intoGen y out s c hcur, if_neg hnstop]
      rw [hri.1]
      have hd := dead_at hy.1 (flattenSink innerRun intoGen out)
        ((some (innerRun c out s).1, s) : Option ig × σ)
      rw [hd.1]
      refine ⟨rfl, hd.2, ?_, ?_⟩
      · exact dead_step hy.1 (flattenSink innerRun intoGen out) (some (innerRun c out s).1, s)
      · intro c' hc'
        cases hc'
        exact dead_step hdc out s
  constructor
  · intro σ out s
    show (Flatten.run srcRun innerRun intoGen y out s).2.1 = s ∧
      (Flatten.run srcRun innerRun intoGen y out s).2.2 = .Complete
    exact ⟨(key σ out s).1, (key σ out s).2.1⟩
  · intro σ out s
    show Dead srcRun ((Flatten.run srcRun innerRun intoGen y out s).1).source ∧
      (∀ c, ((Flatten.run srcRun innerRun intoGen y out s).1).current_generator = some c →
        Dead innerRun c)
    exact ⟨(key σ out s).2.2.1, (key σ out s).2.2.2⟩

/-- When the outer source completes a canonical run against flatten's
sink, the inner generator stored in the final sink state (if any) is
dead: it is either the one stored initially or the result of a full inner
run that returned `Complete`. -/
theorem flatten_sink_final_dead {ig β α σ : Type}
    (innerRun : RunFn ig α) (intoGen : β → ig) (out : Sink σ α)
    (LS : List β) (p0 : Option ig × σ)
    (hwbI : ∀ x, WellBehaved innerRun (intoGen x))
    (hp0 : ∀ c, p0.1 = some c → Dead innerRun c)
    (hc : (listRun LS (flattenSink innerRun intoGen out) p0).2.2 = .Complete) :
    ∀ c, (listRun LS (flattenSink innerRun intoGen out) p0).2.1.1 = some c →
      Dead innerRun c := by
  rcases listRun_complete_final (flattenSink innerRun intoGen out) LS p0 hc with h | ⟨s0, x, hm, hf⟩
  · rw [h]
    exact hp0
  · intro c hcfin
    rw [hf, flattenSink_fst] at hcfin
    have hcc := flattenSink_more innerRun intoGen out s0 x hm
    have hdead : Dead innerRun (innerRun (intoGen x) out s0.2).1 :=
      wellBehaved_sticky (hwbI x) out s0.2 hcc
    cases hcfin
    exact hdead

theorem flatten_complete_dead {src ig β α : Type} (srcRun : RunFn src β)
    (innerRun : RunFn ig α) (intoGen : β → ig) (f : Flatten src ig)
    {σ : Type} (out : Sink σ α) (s : σ)
    (hwbS : WellBehaved srcRun f.source)
    (hwbI : ∀ x, WellBehaved innerRun (intoGen x))
    (hwbC : ∀ c, f.current_generator = some c → WellBehaved innerRun c)
    (hc : (Flatten.run srcRun innerRun intoGen f out s).2.2 = .Complete) :
    Dead (Flatten.run srcRun innerRun intoGen)
      (Flatten.run srcRun innerRun intoGen f out s).1 := by
  refine flatten_dead_of_invariant srcRun innerRun intoGen _ ?_
  obtain ⟨R, LS, hsim, hR⟩ := hwbS
  rcases hcur : f.current_generator with _ | c0
  · rw [Flatten_run_none srcRun innerRun intoGen f out s hcur] at hc ⊢
    have hsimr := hsim f.source LS hR (flattenSink innerRun intoGen out) (none, s)
    refine ⟨?_, ?_⟩
    · exact sim_complete_dead hsim hR (flattenSink innerRun intoGen out) (none, s) hc
    · show ∀ c, (srcRun f.source (flattenSink innerRun intoGen out) (none, s)).2.1.1 =
          some c → Dead innerRun c
      rw [hsimr.1]
      refine flatten_sink_final_dead innerRun intoGen out LS (none, s) hwbI ?_ ?_
      · intro c hcf
        cases hcf
      · rw [← hsimr.2.1]
        exact hc
  · have hwc0 : WellBehaved innerRun c0 := hwbC c0 hcur
    rw [Flatten_run_some srcRun innerRun intoGen f out s c0 hcur] at hc ⊢
    by_cases hstop : (innerRun c0 out s).2.2 = .Stopped
    · exfalso
      rw [if_pos hstop] at hc
      cases hc
    · rw [if_neg hstop] at hc ⊢
      have hic : (innerRun c0 out s).2.2 = .Complete := by
        rcases h : (innerRun c0 out s).2.2 with _ | _
        · exact absurd h hstop
        · rfl
      have hdc' : Dead innerRun (innerRun c0 out s).1 :=
        wellBehaved_sticky hwc0 out s hic
      have hsimr := hsim f.source LS hR (flattenSink innerRun intoGen out)
        (some (innerRun c0 out s).1, (innerRun c0 out s).2.1)
      refine ⟨?_, ?_⟩
      · exact sim_complete_dead hsim hR (flattenSink innerRun intoGen out)
          (some (innerRun c0 out s).1, (innerRun c0 out s).2.1) hc
      · show ∀ c, (srcRun f.source (flattenSink innerRun intoGen out)
            (some (innerRun c0 out s).1, (innerRun c0 out s).2.1)).2.1.1 = some c →
            Dead innerRun c
        rw [hsimr.1]
        refine flatten_sink_final_dead innerRun intoGen out LS
          (some (innerRun c0 out s).1, (innerRun c0 out s).2.1) hwbI ?_ ?_
        · intro c hcf
          cases hcf
          exact hdc'
        · rw [← hsimr.2.1]
          exact hc

theorem take_sticky {g α : Type} (srcRun : RunFn g α) :
    CompleteSticky (Take.run srcRun) := by
  intro t σ out s hc
  exact take_complete_dead srcRun t out s hc

theorem skip_sticky {g α : Type} (srcRun : RunFn g α) (hst : CompleteSticky srcRun) :
    CompleteSticky (Skip.run srcRun) := by
  intro sk σ out s hc
  refine skip_dead_of_generator_dead srcRun _ ?_
  rcases Nat.eq_zero_or_pos sk.amount with h0 | h0
  · simp only [Skip.run, h0, lt_irrefl, gt_iff_lt, if_false]
    have hc2 : (srcRun sk.generator out s).2.2 = .Complete := by
      simpa [Skip.run, h0] using hc
    exact hst sk.generator out s hc2
  · by_cases hcc : (srcRun sk.generator skipSink sk.amount).2.2 = .Complete
    · simp only [Skip.run, h0, gt_iff_lt, if_pos, hcc, if_true]
      exact hst sk.generator skipSink sk.amount hcc
    · by_cases hz : 0 < (srcRun sk.generator skipSink sk.amount).2.1
      · exfalso
        simp only [Skip.run, h0, gt_iff_lt, if_pos, if_neg hcc, hz, if_true] at hc
        cases hc
      · simp only [Skip.run, h0, gt_iff_lt, if_pos, if_neg hcc, hz, if_false]
        have hc2 : (srcRun (srcRun sk.generator skipSink sk.amount).1 out s).2.2 =
            .Complete := by
          simpa [Skip.run, h0, hcc, hz] using hc
        exact hst _ out s hc2

theorem chain_sticky {f s α : Type} (fRun : RunFn f α) (sRun : RunFn s α)
    ( _hstF : CompleteSticky fRun) (hstS : CompleteSticky sRun) :
    CompleteSticky (Chain.run fRun sRun) := by
  intro c σ out st hc
  by_cases hfa : c.first_active
  · by_cases hstop : (fRun c.first out st).2.2 = .Stopped
    · exfalso
      simp only [Chain.run, hfa, if_pos, hstop, if_true] at hc
      cases hc
    · simp only [Chain.run, hfa, if_pos, if_neg hstop] at hc ⊢
      refine chain_dead_of_second_dead fRun sRun _ rfl ?_
      exact hstS c.second out (fRun c.first out st).2.1 hc
  · simp only [Chain.run, hfa, if_neg, Bool.false_eq_true, if_false] at hc ⊢
    refine chain_dead_of_second_dead fRun sRun _ rfl ?_
    exact hstS c.second out st hc

theorem map_sticky {g α β : Type} (srcRun : RunFn g α)
    (hst : CompleteSticky srcRun) :
    CompleteSticky (Map.run (β := β) srcRun) := by
  intro m σ out s hc
  refine map_dead_of_source_dead srcRun _ ?_
  exact hst m.source (fun s x => out s (m.transform x)) s hc

theorem filter_sticky {g α : Type} (srcRun : RunFn g α)
    (hst : CompleteSticky srcRun) :
    CompleteSticky (Filter.run srcRun) := by
  intro fl σ out s hc
  refine filter_dead_of_source_dead srcRun _ ?_
  exact hst fl.generator
    (fun s x => if fl.predicate x then out s x else (s, .MoreValues)) s hc

theorem filterMap_sticky {g α β : Type} (srcRun : RunFn g α)
    (hst : CompleteSticky srcRun) :
    CompleteSticky (FilterMap.run (β := β) srcRun) := by
  intro fm σ out s hc
  refine filterMap_dead_of_source_dead srcRun _ ?_
  exact hst fm.source
    (fun s x => match fm.transform x with
      | some v => out s v
      | none => (s, .MoreValues)) s hc

theorem cloned_sticky {g α : Type} (srcRun : RunFn g α)
    (hst : CompleteSticky srcRun) :
    CompleteSticky (Cloned.run srcRun) := by
  intro c σ out s hc
  refine cloned_dead_of_source_dead srcRun _ ?_
  exact hst c.source (fun s x => out s x) s hc

theorem boxed_sticky {g α : Type} (srcRun : RunFn g α)
    (hst : CompleteSticky srcRun) :
    CompleteSticky (BoxedGenerator.run srcRun) := by
  intro b σ out s hc
  refine boxed_dead_of_source_dead srcRun _ ?_
  exact hst b.source out s hc

/-- C2 counterexample: the claim quantifies over adaptors "whose child
generators themselves satisfy this property", i.e. terminal idempotence
(`CompleteSticky`).  That hypothesis is too weak for `Zip`: the
adversarial generator `badRun` never returns `Complete`, hence satisfies
terminal idempotence vacuously, yet `zip(badRun, empty slice)` first
returns `Complete` (the probe of the exhausted right side completes) and
on the very next run returns `Stopped` (the left child stops without
delivering), violating the claimed stickiness. -/
theorem terminal_idempotence_counterexample :
    ¬ (∀ (lRun : RunFn Nat Nat) (rRun : RunFn (SliceGenerator Nat) Nat),
        CompleteSticky lRun → CompleteSticky rRun →
        CompleteSticky (Zip.run lRun rRun)) := by
  intro h
  have hz := h badRun SliceGenerator.run badRun_completeSticky slice_completeSticky
  have hc : (Zip.run badRun SliceGenerator.run
      (⟨0, SliceGenerator.new []⟩ : Zip Nat (SliceGenerator Nat)) moreSink []).2.2 =
      .Complete := by decide
  have hdead := hz (⟨0, SliceGenerator.new []⟩ : Zip Nat (SliceGenerator Nat)) moreSink [] hc
  have h2 := (dead_at hdead) moreSink ([] : List (Nat × Nat))
  exact absurd h2.2 (by decide)

/-- C2 (amended): once a run has returned `Complete`, every subsequent
run returns `Complete` and hands the sink state back untouched (the sink
is never invoked) — for the slice source unconditionally, for `take`
unconditionally, and for `skip`, `chain`, `map`, `filter`, `filter_map`,
`cloned` and `boxed` whenever their child generators themselves satisfy
this property (`CompleteSticky`), exactly as originally claimed.  Only
`zip` and `flatten` need more: terminal idempotence of their children is
not sufficient (see the counterexample); they are terminally idempotent
provided their children honour the full generator run contract, i.e. each
behaves like the canonical resumable producer of some value sequence
(`WellBehaved`). -/
theorem terminal_idempotence_amended {α β : Type} :
    CompleteSticky (SliceGenerator.run (α := α)) ∧
    (∀ (g : Type) (srcRun : RunFn g α), CompleteSticky (Take.run srcRun)) ∧
    (∀ (g : Type) (srcRun : RunFn g α), CompleteSticky srcRun →
      CompleteSticky (Skip.run srcRun)) ∧
    (∀ (f s : Type) (fRun : RunFn f α) (sRun : RunFn s α),
      CompleteSticky fRun → CompleteSticky sRun →
      CompleteSticky (Chain.run fRun sRun)) ∧
    (∀ (g : Type) (srcRun : RunFn g α), CompleteSticky srcRun →
      CompleteSticky (Map.run (β := β) srcRun)) ∧
    (∀ (g : Type) (srcRun : RunFn g α), CompleteSticky srcRun →
      CompleteSticky (Filter.run srcRun)) ∧
    (∀ (g : Type) (srcRun : RunFn g α), CompleteSticky srcRun →
      CompleteSticky (FilterMap.run (β := β) srcRun)) ∧
    (∀ (g : Type) (srcRun : RunFn g α), CompleteSticky srcRun →
      CompleteSticky (Cloned.run srcRun)) ∧
    (∀ (g : Type) (srcRun : RunFn g α), CompleteSticky srcRun →
      CompleteSticky (BoxedGenerator.run srcRun)) ∧
    (∀ (l r : Type) (lRun : RunFn l α) (rRun : RunFn r β) (z : Zip l r)
        (σ : Type) (out : Sink σ (α × β)) (s : σ),
      WellBehaved lRun z.left → WellBehaved rRun z.right →
      (Zip.run lRun rRun z out s).2.2 = .Complete →
      Dead (Zip.run lRun rRun) (Zip.run lRun rRun z out s).1) ∧
    (∀ (src ig : Type) (srcRun : RunFn src β) (innerRun : RunFn ig α) (intoGen : β → ig)
        (f : Flatten src ig) (σ : Type) (out : Sink σ α) (s : σ),
      WellBehaved srcRun f.source →
      (∀ x, WellBehaved innerRun (intoGen x)) →
      (∀ c, f.current_generator = some c → WellBehaved innerRun c) →
      (Flatten.run srcRun innerRun intoGen f out s).2.2 = .Complete →
      Dead (Flatten.run srcRun innerRun intoGen)
        (Flatten.run srcRun innerRun intoGen f out s).1) := by
  refine ⟨slice_completeSticky, ?_, ?_, ?_, ?_, ?_, ?_, ?_, ?_, ?_, ?_⟩
  · intro g srcRun
    exact take_sticky srcRun
  · intro g srcRun hst
    exact skip_sticky srcRun hst
  · intro f s fRun sRun hstF hstS
    exact chain_sticky fRun sRun hstF hstS
  · intro g srcRun hst
    exact map_sticky srcRun hst
  · intro g srcRun hst
    exact filter_sticky srcRun hst
  · intro g srcRun hst
    exact filterMap_sticky srcRun hst
  · intro g srcRun hst
    exact cloned_sticky srcRun hst
  · intro g srcRun hst
    exact boxed_sticky srcRun hst
  · intro l r lRun rRun z σ out s hwl hwr hc
    exact zip_complete_dead lRun rRun z out s hwl hwr hc
  · intro src ig srcRun innerRun intoGen f σ out s hwbS hwbI hwbC hc
    exact flatten_complete_dead srcRun innerRun intoGen f out s hwbS hwbI hwbC hc

/-- Witness for amended C2: concrete completed runs of the slice source,
of `take`, of `skip` over a merely-sticky (slice) child, and of `zip`
over contract-abiding slice children are dead afterwards. -/
theorem terminal_idempotence_amended_witness :
    Dead SliceGenerator.run
      (SliceGenerator.run (SliceGenerator.new [1, 2]) moreSink []).1 ∧
    Dead (Take.run SliceGenerator.run)
      (Take.run SliceGenerator.run ⟨SliceGenerator.new [1, 2, 3], 2⟩ moreSink []).1 ∧
    Dead (Skip.run SliceGenerator.run)
      (Skip.run SliceGenerator.run ⟨SliceGenerator.new [1, 2], 1⟩ moreSink []).1 ∧
    Dead (Zip.run SliceGenerator.run SliceGenerator.run)
      (Zip.run SliceGenerator.run SliceGenerator.run
        ⟨SliceGenerator.new [1, 2], SliceGenerator.new [9]⟩ moreSink []).1 :=
  ⟨(terminal_idempotence_amended (α := Nat) (β := Nat)).1
      (SliceGenerator.new [1, 2]) moreSink [] (by decide),
    (terminal_idempotence_amended (α := Nat) (β := Nat)).2.1
      (SliceGenerator Nat) SliceGenerator.run ⟨SliceGenerator.new [1, 2, 3], 2⟩
      moreSink [] (by decide),
    (terminal_idempotence_amended (α := Nat) (β := Nat)).2.2.1
      (SliceGenerator Nat) SliceGenerator.run slice_completeSticky
      ⟨SliceGenerator.new [1, 2], 1⟩ moreSink [] (by decide),
    (terminal_idempotence_amended (α := Nat) (β := Nat)).2.2.2.2.2.2.2.2.2.1
      (SliceGenerator Nat) (SliceGenerator Nat) SliceGenerator.run SliceGenerator.run
      ⟨SliceGenerator.new [1, 2], SliceGenerator.new [9]⟩
      (List (Nat × Nat)) moreSink []
      (slice_wellBehaved (SliceGenerator.new [1, 2]))
      (slice_wellBehaved (SliceGenerator.new [9])) (by decide)⟩

theorem chain_inactive_run {f s α : Type} (fRun : RunFn f α) (sRun : RunFn s α)
    (c : Chain f s) (h : c.first_active = false) {σ : Type} (out : Sink σ α) (st : σ) :
    Chain.run fRun sRun c out st =
      ({ first := c.first, second := (sRun c.second out st).1, first_active := false },
        (sRun c.second out st).2.1, (sRun c.second out st).2.2) := by
  simp [Chain.run, h]

theorem chain_inactive_permanent {f s α : Type} (fRun : RunFn f α) (sRun : RunFn s α)
    (c : Chain f s) (h : c.first_active = false) :
    ∀ y, Reach (Chain.run fRun sRun) c y → y.first = c.first ∧ y.first_active = false := by
  intro y hy
  obtain ⟨n, hn⟩ := hy
  induction n generalizing y with
  | zero => cases hn; exact ⟨rfl, h⟩
  | succ k ih =>
    obtain ⟨z, hz, σ, out, st, rfl⟩ := hn
    have hzp := ih z hz
    show ((Chain.run fRun sRun z out st).1).first = c.first ∧
      ((Chain.run fRun sRun z out st).1).first_active = false
    rw [chain_inactive_run fRun sRun z hzp.2 out st]
    exact ⟨hzp.1, rfl⟩

/-- C5: `chain(A, B)` delivers all of A followed by all of B with result
`Complete` (for contract-abiding children producing the sequences `LA`
and `LB`); while A is active, a `Stopped` from A is returned as-is with B
untouched and the active flag still pointing at A, so the next run
resumes inside A; once A returns `Complete` during a run, the flag
switches to B, and from any inactive-flag state every present and future
run leaves A's state untouched (A is never invoked again) and behaves as
a run of B alone. -/
theorem chain_spec {α f s : Type} (fRun : RunFn f α) (sRun : RunFn s α)
    (a : f) (b : s) (LA LB : List α)
    (Rf : f → List α → Prop) (Rs : s → List α → Prop)
    (hsimF : IsSim fRun Rf) (hRa : Rf a LA)
    (hsimS : IsSim sRun Rs) (hRb : Rs b LB)
    (a2 : f) (b2 : s) (σ2 : Type) (out2 : Sink σ2 α) (st2 : σ2)
    (hstop : (fRun a2 out2 st2).2.2 = .Stopped)
    (a3 : f) (b3 : s) (σ3 : Type) (out3 : Sink σ3 α) (st3 : σ3)
    (hcomp : (fRun a3 out3 st3).2.2 = .Complete)
    (c4 : Chain f s) (hc4 : c4.first_active = false) :
    ((Chain.run fRun sRun ⟨a, b, true⟩ moreSink []).2.1 = LA ++ LB ∧
      (Chain.run fRun sRun ⟨a, b, true⟩ moreSink []).2.2 = .Complete ∧
      ((Chain.run fRun sRun ⟨a, b, true⟩ moreSink []).1).first_active = false) ∧
    Chain.run fRun sRun ⟨a2, b2, true⟩ out2 st2 =
      (⟨(fRun a2 out2 st2).1, b2, true⟩, (fRun a2 out2 st2).2.1, .Stopped) ∧
    ((Chain.run fRun sRun ⟨a3, b3, true⟩ out3 st3).1).first_active = false ∧
    (∀ (σ : Type) (out : Sink σ α) (st : σ),
      Chain.run fRun sRun c4 out st =
        ({ first := c4.first, second := (sRun c4.second out st).1, first_active := false },
          (sRun c4.second out st).2.1, (sRun c4.second out st).2.2)) ∧
    (∀ y, Reach (Chain.run fRun sRun) c4 y →
      y.first = c4.first ∧ y.first_active = false) := by
  refine ⟨?_, ?_, ?_, ?_, chain_inactive_permanent fRun sRun c4 hc4⟩
  · have hfa := hsimF a LA hRa moreSink ([] : List α)
    rw [listRun_more LA []] at hfa
    have hnstop : ¬ (fRun a moreSink ([] : List α)).2.2 = .Stopped := by
      rw [hfa.2.1]
      intro h
      cases h
    have hsb := hsimS b LB hRb moreSink (fRun a moreSink ([] : List α)).2.1
    rw [hfa.1] at hsb
    simp only [List.nil_append] at hsb
    rw [listRun_more LB LA] at hsb
    simp only [Chain.run, if_pos, if_neg hnstop]
    rw [hfa.1]
    simp only [List.nil_append]
    exact ⟨hsb.1, hsb.2.1, trivial⟩
  · simp [Chain.run, hstop]
  · have hnstop : ¬ (fRun a3 out3 st3).2.2 = .Stopped := by
      rw [hcomp]
      intro h
      cases h
    simp [Chain.run, hnstop]
  · intro σ out st
    exact chain_inactive_run fRun sRun c4 hc4 out st

/-- Witness for C5 with slice children `A = [1,2]`, `B = [3,4]`; the
stop-inside-A instance uses the stop-on-first sink, the complete instance
an always-continue sink, and the inactive state has `A` exhausted. -/
theorem chain_spec_witness :
    ((Chain.run SliceGenerator.run SliceGenerator.run
        ⟨SliceGenerator.new [1, 2], SliceGenerator.new [3, 4], true⟩ moreSink []).2.1 =
        [1, 2] ++ [3, 4] ∧
      (Chain.run SliceGenerator.run SliceGenerator.run
        ⟨SliceGenerator.new [1, 2], SliceGenerator.new [3, 4], true⟩ moreSink []).2.2 =
        .Complete ∧
      ((Chain.run SliceGenerator.run SliceGenerator.run
        ⟨SliceGenerator.new [1, 2], SliceGenerator.new [3, 4], true⟩ moreSink []).1).first_active
        = false) ∧
    Chain.run SliceGenerator.run SliceGenerator.run
        ⟨SliceGenerator.new [5, 6], SliceGenerator.new [7], true⟩ stopAtSink (1, []) =
      (⟨(SliceGenerator.run (SliceGenerator.new [5, 6]) stopAtSink (1, [])).1,
        SliceGenerator.new [7], true⟩,
        (SliceGenerator.run (SliceGenerator.new [5, 6]) stopAtSink (1, [])).2.1, .Stopped) ∧
    ((Chain.run SliceGenerator.run SliceGenerator.run
        ⟨SliceGenerator.new [8], SliceGenerator.new [9], true⟩ moreSink []).1).first_active
      = false ∧
    (∀ (σ : Type) (out : Sink σ Nat) (st : σ),
      Chain.run SliceGenerator.run SliceGenerator.run
          ⟨⟨[1, 2], 2⟩, SliceGenerator.new [3, 4], false⟩ out st =
        ({ first := ⟨[1, 2], 2⟩,
           second := (SliceGenerator.run (SliceGenerator.new [3, 4]) out st).1,
           first_active := false },
          (SliceGenerator.run (SliceGenerator.new [3, 4]) out st).2.1,
          (SliceGenerator.run (SliceGenerator.new [3, 4]) out st).2.2)) ∧
    (∀ y, Reach (Chain.run SliceGenerator.run SliceGenerator.run)
        (⟨⟨[1, 2], 2⟩, SliceGenerator.new [3, 4], false⟩ : Chain (SliceGenerator Nat) (SliceGenerator Nat)) y →
      y.first = (⟨[1, 2], 2⟩ : SliceGenerator Nat) ∧ y.first_active = false) :=
  chain_spec SliceGenerator.run SliceGenerator.run
    (SliceGenerator.new [1, 2]) (SliceGenerator.new [3, 4]) [1, 2] [3, 4]
    (fun g l => l = g.slice.drop g.index) (fun g l => l = g.slice.drop g.index)
    slice_sim rfl slice_sim rfl
    (SliceGenerator.new [5, 6]) (SliceGenerator.new [7]) (Nat × List Nat) stopAtSink (1, [])
    (by decide)
    (SliceGenerator.new [8]) (SliceGenerator.new [9]) (List Nat) moreSink [] (by decide)
    ⟨⟨[1, 2], 2⟩, SliceGenerator.new [3, 4], false⟩ rfl

/-! ## Properties of the reference consumer `consume` -/

theorem consume_cons_stop {α : Type} {f : List α → ValueResult} {log : List α} {x : α}
    {rest : List α} (h : f (log ++ [x]) = .Stop) :
    consume f log (x :: rest) = (1, log ++ [x], .Stopped) := by
  rw [consume, h]

theorem consume_cons_more {α : Type} {f : List α → ValueResult} {log : List α} {x : α}
    {rest : List α} (h : f (log ++ [x]) = .MoreValues) :
    consume f log (x :: rest) =
      ((consume f (log ++ [x]) rest).1 + 1, (consume f (log ++ [x]) rest).2) := by
  rw [consume, h]

theorem consume_le {α : Type} (f : List α → ValueResult) :
    ∀ (l log : List α), (consume f log l).1 ≤ l.length := by
  intro l
  induction l with
  | nil => intro log; simp [consume]
  | cons x rest ih =>
    intro log
    rcases h : f (log ++ [x]) with _ | _
    · rw [consume_cons_stop h]; simp
    · rw [consume_cons_more h]
      have := ih (log ++ [x])
      simp
      omega

theorem consume_log {α : Type} (f : List α → ValueResult) :
    ∀ (l log : List α), (consume f log l).2.1 = log ++ l.take (consume f log l).1 := by
  intro l
  induction l with
  | nil => intro log; simp [consume]
  | cons x rest ih =>
    intro log
    rcases h : f (log ++ [x]) with _ | _
    · rw [consume_cons_stop h]; simp
    · rw [consume_cons_more h]
      have := ih (log ++ [x])
      simp only [List.take_succ_cons]
      rw [this]
      simp

theorem consume_stopped {α : Type} (f : List α → ValueResult) :
    ∀ (l log : List α), (consume f log l).2.2 = .Stopped → 1 ≤ (consume f log l).1 := by
  intro l
  induction l with
  | nil =>
    intro log h
    rw [consume] at h
    cases h
  | cons x rest ih =>
    intro log h
    rcases hf : f (log ++ [x]) with _ | _
    · rw [consume_cons_stop hf]
    · rw [consume_cons_more hf]
      simp

theorem consume_complete {α : Type} (f : List α → ValueResult) :
    ∀ (l log : List α), (consume f log l).2.2 = .Complete →
      (consume f log l).1 = l.length := by
  intro l
  induction l with
  | nil => intro log _; rfl
  | cons x rest ih =>
    intro log h
    rcases hf : f (log ++ [x]) with _ | _
    · rw [consume_cons_stop hf] at h
      cases h
    · rw [consume_cons_more hf] at h ⊢
      have := ih (log ++ [x]) h
      simp [this]

theorem consume_more {α : Type} :
    ∀ (l log : List α), consume (fun _ => ValueResult.MoreValues) log l =
      (l.length, log ++ l, .Complete) := by
  intro l
  induction l with
  | nil => intro log; simp [consume]
  | cons x rest ih =>
    intro log
    rw [consume_cons_more rfl, ih (log ++ [x])]
    simp

theorem histSink_more {α : Type} :
    histSink (fun _ => ValueResult.MoreValues) = moreSink (α := α) := rfl

/-- The canonical generator driven by a history sink behaves exactly as
the reference consumer. -/
theorem listRun_histSink {α : Type} (f : List α → ValueResult) :
    ∀ (l log : List α), listRun l (histSink f) log =
      (l.drop (consume f log l).1, (consume f log l).2.1, (consume f log l).2.2) := by
  intro l
  induction l with
  | nil => intro log; simp [listRun, consume]
  | cons x rest ih =>
    intro log
    rcases hf : f (log ++ [x]) with _ | _
    · have ho : histSink f log x = (log ++ [x], .Stop) := by simp [histSink, hf]
      rw [listRun_cons_stop ho, consume_cons_stop hf]
      simp
    · have ho : histSink f log x = (log ++ [x], .MoreValues) := by simp [histSink, hf]
      rw [listRun_cons_more ho, consume_cons_more hf, ih (log ++ [x])]
      simp

/-! ## Zip over slice generators -/

theorem zip_probe_nil {α : Type} {M : List α} {j : Nat} (hM : M.drop j = []) :
    SliceGenerator.run (⟨M, j⟩ : SliceGenerator α) zipProbeSink (none : Option α) =
      (⟨M, j⟩, none, .Complete) := by
  rw [SliceGenerator_run_eq]
  simp only [hM]
  rfl

theorem zip_probe_cons {α : Type} {M : List α} {j : Nat} {m : α} {ms : List α}
    (hM : M.drop j = m :: ms) :
    SliceGenerator.run (⟨M, j⟩ : SliceGenerator α) zipProbeSink (none : Option α) =
      (⟨M, j + 1⟩, some m, .Stopped) := by
  rw [SliceGenerator_run_eq]
  simp only [hM]
  rfl

/-- Driving the left slice of a zip: it consumes exactly one right value
per delivered pair, pairs values in lockstep, and obeys the reference
consumer on the zipped remainders, possibly probing one extra left value
when the right side is exhausted. -/
theorem zip_slices_aux {α β : Type} (f : List (α × β) → ValueResult) (M : List β) :
    ∀ (lrem : List α) (j iL : Nat) (rr0 : GeneratorResult) (log : List (α × β)),
      ∃ e rr' leftRes,
        sliceRunAux (zipLeftSink SliceGenerator.run (histSink f)) lrem iL
            (rr0, ⟨M, j⟩, log) =
          (iL + (consume f log (lrem.zip (M.drop j))).1 + e,
            (rr', ⟨M, j + (consume f log (lrem.zip (M.drop j))).1⟩,
              (consume f log (lrem.zip (M.drop j))).2.1),
            leftRes) ∧
        (((consume f log (lrem.zip (M.drop j))).2.2 = .Stopped ∧ e = 0 ∧
            leftRes = .Stopped ∧ rr' = .Stopped) ∨
         ((consume f log (lrem.zip (M.drop j))).2.2 = .Complete ∧
            (consume f log (lrem.zip (M.drop j))).1 = lrem.length ∧ e = 0 ∧
            leftRes = .Complete) ∨
         ((consume f log (lrem.zip (M.drop j))).2.2 = .Complete ∧
            (consume f log (lrem.zip (M.drop j))).1 < lrem.length ∧ e = 1 ∧
            leftRes = .Stopped ∧ rr' = .Complete)) := by
  intro lrem
  induction lrem with
  | nil =>
    intro j iL rr0 log
    refine ⟨0, rr0, .Complete, ?_, Or.inr (Or.inl ⟨rfl, rfl, rfl, rfl⟩)⟩
    simp [sliceRunAux, consume]
  | cons x xs ih =>
    intro j iL rr0 log
    rcases hM : M.drop j with _ | ⟨m, ms⟩
    · -- right side exhausted: the probe finds nothing, zip aborts
      have hsink : zipLeftSink SliceGenerator.run (histSink f) (rr0, ⟨M, j⟩, log) x =
          ((.Complete, (⟨M, j⟩ : SliceGenerator β), log), .Stop) := by
        simp [zipLeftSink, zip_probe_nil hM]
      refine ⟨1, .Complete, .Stopped, ?_, Or.inr (Or.inr ⟨?_, ?_, rfl, rfl, rfl⟩)⟩
      · rw [sliceRunAux_cons_stop hsink]
        simp [consume]
      · simp [consume]
      · simp [consume]
    · -- probe one right value and deliver the pair
      have hsink : zipLeftSink SliceGenerator.run (histSink f) (rr0, ⟨M, j⟩, log) x =
          ((.Stopped, (⟨M, j + 1⟩ : SliceGenerator β), log ++ [(x, m)]),
            f (log ++ [(x, m)])) := by
        simp [zipLeftSink, zip_probe_cons hM, histSink]
      have hzrem : (x :: xs).zip (m :: ms) = (x, m) :: xs.zip ms := rfl
      have hms : M.drop (j + 1) = ms := by
        rw [← List.tail_drop, hM]
        rfl
      rcases hf : f (log ++ [(x, m)]) with _ | _
      · -- the consumer stops on this pair
        have hsink' : zipLeftSink SliceGenerator.run (histSink f) (rr0, ⟨M, j⟩, log) x =
            ((.Stopped, (⟨M, j + 1⟩ : SliceGenerator β), log ++ [(x, m)]), .Stop) := by
          rw [hsink, hf]
        refine ⟨0, .Stopped, .Stopped, ?_, Or.inl ⟨?_, rfl, rfl, rfl⟩⟩
        · rw [sliceRunAux_cons_stop hsink', hzrem, consume_cons_stop hf]
        · rw [hzrem, consume_cons_stop hf]
      · -- the consumer continues
        have hsink' : zipLeftSink SliceGenerator.run (histSink f) (rr0, ⟨M, j⟩, log) x =
            ((.Stopped, (⟨M, j + 1⟩ : SliceGenerator β), log ++ [(x, m)]), .MoreValues) := by
          rw [hsink, hf]
        obtain ⟨e, rr', leftRes, heq, hcase⟩ := ih (j + 1) (iL + 1) .Stopped (log ++ [(x, m)])
        rw [hms] at heq hcase
        refine ⟨e, rr', leftRes, ?_, ?_⟩
        · rw [sliceRunAux_cons_more hsink', heq, hzrem, consume_cons_more hf]
          simp only [Prod.mk.injEq, SliceGenerator.mk.injEq]
          simp
          omega
        · rw [hzrem, consume_cons_more hf]
          rcases hcase with ⟨h1, h2, h3, h4⟩ | ⟨h1, h2, h3, h4⟩ | ⟨h1, h2, h3, h4, h5⟩
          · exact Or.inl ⟨h1, h2, h3, h4⟩
          · refine Or.inr (Or.inl ⟨h1, ?_, h3, h4⟩)
            simp [h2]
          · refine Or.inr (Or.inr ⟨h1, ?_, h3, h4, h5⟩)
            simp
            omega

/-- A full zip run over two slice cursors in lockstep position `d`:
pairs are delivered exactly as the reference consumer dictates on the
zipped remainders, the right cursor advances exactly one step per
delivered pair, and the left cursor advances one extra step only when the
run completes with the right side exhausted while the left still has
data. -/
theorem zip_slices_run {α β : Type} (f : List (α × β) → ValueResult) (L : List α)
    (M : List β) (d : Nat) (log : List (α × β)) :
    Zip.run SliceGenerator.run SliceGenerator.run
        (⟨⟨L, d⟩, ⟨M, d⟩⟩ : Zip (SliceGenerator α) (SliceGenerator β)) (histSink f) log =
      (⟨⟨L, d + (consume f log ((L.drop d).zip (M.drop d))).1 +
          (if (consume f log ((L.drop d).zip (M.drop d))).2.2 = .Complete ∧
              d + (consume f log ((L.drop d).zip (M.drop d))).1 < L.length then 1 else 0)⟩,
        ⟨M, d + (consume f log ((L.drop d).zip (M.drop d))).1⟩⟩,
        (consume f log ((L.drop d).zip (M.drop d))).2.1,
        (consume f log ((L.drop d).zip (M.drop d))).2.2) := by
  obtain ⟨e, rr', leftRes, heq, hcase⟩ :=
    zip_slices_aux f M (L.drop d) d d .Stopped log
  have hlen : (L.drop d).length = L.length - d := List.length_drop d L
  have hc := consume_le f ((L.drop d).zip (M.drop d)) log
  rw [Zip_run_eq]
  simp only [SliceGenerator_run_eq]
  rw [heq]
  rcases hcase with ⟨hres, he, hlres, hrr⟩ | ⟨hres, hlenc, he, hlres⟩ |
    ⟨hres, hlt, he, hlres, hrr⟩
  · have hcond : ¬ (leftRes = GeneratorResult.Complete ∨ rr' = GeneratorResult.Complete) := by
      rw [hlres, hrr]
      intro h
      rcases h with h | h <;> cases h
    rw [if_neg hcond]
    have hif : ¬ ((consume f log ((L.drop d).zip (M.drop d))).2.2 = GeneratorResult.Complete ∧
        d + (consume f log ((L.drop d).zip (M.drop d))).1 < L.length) := by
      rw [hres]
      intro h
      cases h.1
    rw [if_neg hif, hres, he]
  · have hcond : leftRes = GeneratorResult.Complete ∨ rr' = GeneratorResult.Complete :=
      Or.inl hlres
    rw [if_pos hcond]
    have hif : ¬ ((consume f log ((L.drop d).zip (M.drop d))).2.2 = GeneratorResult.Complete ∧
        d + (consume f log ((L.drop d).zip (M.drop d))).1 < L.length) := by
      intro h
      omega
    rw [if_neg hif, hres, he]
  · have hcond : leftRes = GeneratorResult.Complete ∨ rr' = GeneratorResult.Complete :=
      Or.inr hrr
    rw [if_pos hcond]
    have hif : (consume f log ((L.drop d).zip (M.drop d))).2.2 = GeneratorResult.Complete ∧
        d + (consume f log ((L.drop d).zip (M.drop d))).1 < L.length := by
      constructor
      · exact hres
      · omega
    rw [if_pos hif, hres, he]

/-- C6: zipping `[1,2,3]` with `[1,2,3,4]` delivers exactly
`[(1,1),(2,2),(3,3)]` and returns `Complete`; in general, zipping two
slices with an always-continue consumer delivers exactly `L.zip M` (the
shorter side truncates, both runs return `Complete` once either side is
exhausted) and no partial pair is ever delivered: the right cursor ends
exactly at the number of delivered pairs. -/
theorem zip_truncation_spec {α β : Type} (L : List α) (M : List β) :
    Zip.run SliceGenerator.run SliceGenerator.run
        ⟨SliceGenerator.new [1, 2, 3], SliceGenerator.new [1, 2, 3, 4]⟩ moreSink [] =
      (⟨⟨[1, 2, 3], 3⟩, ⟨[1, 2, 3, 4], 3⟩⟩, [(1, 1), (2, 2), (3, 3)], .Complete) ∧
    (Zip.run SliceGenerator.run SliceGenerator.run
        ⟨SliceGenerator.new L, SliceGenerator.new M⟩ moreSink []).2.1 = L.zip M ∧
    (Zip.run SliceGenerator.run SliceGenerator.run
        ⟨SliceGenerator.new L, SliceGenerator.new M⟩ moreSink []).2.2 = .Complete ∧
    ((Zip.run SliceGenerator.run SliceGenerator.run
        ⟨SliceGenerator.new L, SliceGenerator.new M⟩ moreSink []).1).right.index =
      (L.zip M).length := by
  refine ⟨by decide, ?_⟩
  have h := zip_slices_run (fun _ => ValueResult.MoreValues) L M 0 []
  rw [histSink_more] at h
  simp only [List.drop_zero, consume_more] at h
  simp only [SliceGenerator.new]
  rw [h]
  simp

theorem zip_drop {α β : Type} : ∀ (d : Nat) (L : List α) (M : List β),
    (L.drop d).zip (M.drop d) = (L.zip M).drop d := by
  intro d
  induction d with
  | zero => intro L M; rfl
  | succ k ih =>
    intro L M
    cases L with
    | nil => simp
    | cons x L' =>
      cases M with
      | nil => simp
      | cons y M' =>
        simp only [List.drop_succ_cons, List.zip_cons_cons]
        exact ih L' M'

theorem runSeqStopped_cons {g α : Type} (run : RunFn g α)
    (f : List α → ValueResult) (fs : List (List α → ValueResult)) (x : g) (log : List α) :
    runSeqStopped run (f :: fs) x log =
      (if (run x (histSink f) log).2.2 = .Complete then none
       else runSeqStopped run fs (run x (histSink f) log).1 (run x (histSink f) log).2.1) := by
  rw [runSeqStopped]
  rcases h : (run x (histSink f) log).2.2 with _ | _
  · simp [h]
  · simp [h]

theorem zip_consume_log {α β : Type} (f : List (α × β) → ValueResult)
    (L : List α) (M : List β) (lg : List (α × β)) (n : Nat)
    (hlg : lg = (L.zip M).take n) :
    (consume f lg ((L.drop n).zip (M.drop n))).2.1 =
      (L.zip M).take (n + (consume f lg ((L.drop n).zip (M.drop n))).1) := by
  rw [consume_log, zip_drop, hlg]
  exact (List.take_add _ _ _).symm

/-- Invariant of any sequence of `Stopped` zip runs over two slices: the
delivery history is exactly a prefix of `L.zip M` and both cursors sit
exactly at the number of delivered pairs. -/
theorem zip_seq_invariant {α β : Type} (L : List α) (M : List β) :
    ∀ (fs : List (List (α × β) → ValueResult)) (d : Nat) (log : List (α × β))
      (z' : Zip (SliceGenerator α) (SliceGenerator β)) (log' : List (α × β)),
      log = (L.zip M).take d → d ≤ (L.zip M).length →
      runSeqStopped (Zip.run SliceGenerator.run SliceGenerator.run) fs
        ⟨⟨L, d⟩, ⟨M, d⟩⟩ log = some (z', log') →
      z' = ⟨⟨L, log'.length⟩, ⟨M, log'.length⟩⟩ ∧
      log' = (L.zip M).take log'.length ∧
      log'.length ≤ (L.zip M).length ∧ d ≤ log'.length := by
  intro fs
  induction fs with
  | nil =>
    intro d log z' log' hlog hd hseq
    rw [runSeqStopped] at hseq
    cases hseq
    have hlen : log.length = d := by
      rw [hlog, List.length_take]
      omega
    rw [hlen]
    exact ⟨rfl, hlog, by omega, le_refl d⟩
  | cons f fs ih =>
    intro d log z' log' hlog hd hseq
    have hrun := zip_slices_run f L M d log
    rw [runSeqStopped_cons] at hseq
    simp only [hrun] at hseq
    rcases hres : (consume f log ((L.drop d).zip (M.drop d))).2.2 with _ | _
    · -- the run stopped; no extra left step is taken
      rw [hres] at hseq
      have hif : ¬ (GeneratorResult.Stopped = GeneratorResult.Complete) := by
        intro h
        cases h
      rw [if_neg hif] at hseq
      have he : (if GeneratorResult.Stopped = GeneratorResult.Complete ∧
          d + (consume f log ((L.drop d).zip (M.drop d))).1 < L.length then 1 else 0) = 0 := by
        simp
      rw [he] at hseq
      have hc := consume_le f ((L.drop d).zip (M.drop d)) log
      have hzlen : ((L.drop d).zip (M.drop d)).length = (L.zip M).length - d := by
        rw [zip_drop]
        simp
      have hlog2 := zip_consume_log f L M log d hlog
      have := ih (d + (consume f log ((L.drop d).zip (M.drop d))).1)
        (consume f log ((L.drop d).zip (M.drop d))).2.1 z' log' hlog2 (by omega) ?_
      · exact ⟨this.1, this.2.1, this.2.2.1, by omega⟩
      · have hz : (⟨⟨L, d + (consume f log ((L.drop d).zip (M.drop d))).1 + 0⟩,
            ⟨M, d + (consume f log ((L.drop d).zip (M.drop d))).1⟩⟩ :
            Zip (SliceGenerator α) (SliceGenerator β)) =
            ⟨⟨L, d + (consume f log ((L.drop d).zip (M.drop d))).1⟩,
              ⟨M, d + (consume f log ((L.drop d).zip (M.drop d))).1⟩⟩ := by
          simp
        rw [← hz]
        exact hseq
    · -- the run completed: runSeqStopped would have aborted
      rw [hres] at hseq
      rw [if_pos rfl] at hseq
      cases hseq

/-- C7 counterexample: after zip(`[1,2,3,4,5]`, `[9]`) has delivered its
single pair and returned `Complete`, a further `run` call silently
advances the left cursor to 3 while the pairing index is still 1: the
left side is then more than one step beyond the pairing index, refuting
the claim for sequences of run calls that continue past `Complete`. -/
theorem zip_lockstep_counterexample :
    (Zip.run SliceGenerator.run SliceGenerator.run
      ⟨SliceGenerator.new [1, 2, 3, 4, 5], SliceGenerator.new [9]⟩ moreSink []).2.1 =
      [(1, 9)] ∧
    (Zip.run SliceGenerator.run SliceGenerator.run
      ⟨SliceGenerator.new [1, 2, 3, 4, 5], SliceGenerator.new [9]⟩ moreSink []).2.2 =
      .Complete ∧
    (Zip.run SliceGenerator.run SliceGenerator.run
      (Zip.run SliceGenerator.run SliceGenerator.run
        ⟨SliceGenerator.new [1, 2, 3, 4, 5], SliceGenerator.new [9]⟩ moreSink []).1
      moreSink []).2.1 = [] ∧
    ((Zip.run SliceGenerator.run SliceGenerator.run
      (Zip.run SliceGenerator.run SliceGenerator.run
        ⟨SliceGenerator.new [1, 2, 3, 4, 5], SliceGenerator.new [9]⟩ moreSink []).1
      moreSink []).1).left.index = 3 ∧
    ¬ (3 ≤ 1 + 1) := by
  refine ⟨by decide, by decide, by decide, by decide, by decide⟩

/-- C7 (amended): across any sequence of run calls that end `Stopped`,
the delivered pairs are exactly a prefix of `L.zip M` (so the i-th pair
is the i-th left value paired with the i-th right value, and nothing is
lost, skipped or delivered twice on resumption) and both cursors sit
exactly at the pairing index; on the next run, whatever its result, the
history is still exactly a prefix of `L.zip M`, the right cursor equals
the number of delivered pairs and the left cursor is at most one step
beyond it.  (Runs made after the first `Complete` can keep consuming
left values silently — see the counterexample — so the one-step bound is
stated up to and including the first completed run.) -/
theorem zip_lockstep_amended {α β : Type} (L : List α) (M : List β)
    (fs : List (List (α × β) → ValueResult))
    (z' : Zip (SliceGenerator α) (SliceGenerator β)) (log' : List (α × β))
    (hseq : runSeqStopped (Zip.run SliceGenerator.run SliceGenerator.run) fs
      ⟨SliceGenerator.new L, SliceGenerator.new M⟩ [] = some (z', log'))
    (f : List (α × β) → ValueResult) :
    z' = ⟨⟨L, log'.length⟩, ⟨M, log'.length⟩⟩ ∧
    log' = (L.zip M).take log'.length ∧
    log'.length ≤ (L.zip M).length ∧
    ((Zip.run SliceGenerator.run SliceGenerator.run z' (histSink f) log').2.1 =
      (L.zip M).take
        ((Zip.run SliceGenerator.run SliceGenerator.run z' (histSink f) log').2.1).length ∧
    ((Zip.run SliceGenerator.run SliceGenerator.run z' (histSink f) log').1).right.index =
      ((Zip.run SliceGenerator.run SliceGenerator.run z' (histSink f) log').2.1).length ∧
    ((Zip.run SliceGenerator.run SliceGenerator.run z' (histSink f) log').1).left.index ≤
      ((Zip.run SliceGenerator.run SliceGenerator.run z' (histSink f) log').2.1).length + 1) := by
  have hinv := zip_seq_invariant L M fs 0 [] z' log' (by simp) (by simp) hseq
  obtain ⟨hz, hlog, hle, -⟩ := hinv
  refine ⟨hz, hlog, hle, ?_⟩
  have hrun := zip_slices_run f L M log'.length log'
  rw [hz, hrun]
  dsimp only
  have hc := consume_le f ((L.drop log'.length).zip (M.drop log'.length)) log'
  have hzlen : ((L.drop log'.length).zip (M.drop log'.length)).length =
      (L.zip M).length - log'.length := by
    rw [zip_drop]
    simp
  have hlog2 := zip_consume_log f L M log' log'.length hlog
  have hlen2 : ((consume f log' ((L.drop log'.length).zip (M.drop log'.length))).2.1).length =
      log'.length + (consume f log' ((L.drop log'.length).zip (M.drop log'.length))).1 := by
    rw [hlog2, List.length_take]
    omega
  refine ⟨?_, ?_, ?_⟩
  · rw [hlen2]
    exact hlog2
  · rw [hlen2]
  · rw [hlen2]
    split
    · omega
    · omega

/-- Witness for amended C7: two stopped runs over `L = [1,2,3]`,
`M = [10,20,30]`, stopping after the first and the second pair: the
cursors sit exactly at the pairing index 2 and the history is exactly the
first two pairs. -/
theorem zip_lockstep_amended_witness :
    (⟨⟨[1, 2, 3], 2⟩, ⟨[10, 20, 30], 2⟩⟩ :
        Zip (SliceGenerator Nat) (SliceGenerator Nat)) =
      ⟨⟨[1, 2, 3], ([(1, 10), (2, 20)] : List (Nat × Nat)).length⟩,
        ⟨[10, 20, 30], ([(1, 10), (2, 20)] : List (Nat × Nat)).length⟩⟩ ∧
    ([(1, 10), (2, 20)] : List (Nat × Nat)) =
      (([1, 2, 3] : List Nat).zip [10, 20, 30]).take
        ([(1, 10), (2, 20)] : List (Nat × Nat)).length :=
  ⟨(zip_lockstep_amended [1, 2, 3] [10, 20, 30]
      [fun l => if l.length = 1 then .Stop else .MoreValues,
       fun l => if l.length = 2 then .Stop else .MoreValues]
      ⟨⟨[1, 2, 3], 2⟩, ⟨[10, 20, 30], 2⟩⟩ [(1, 10), (2, 20)]
      (by decide) (fun _ => ValueResult.MoreValues)).1,
    (zip_lockstep_amended [1, 2, 3] [10, 20, 30]
      [fun l => if l.length = 1 then .Stop else .MoreValues,
       fun l => if l.length = 2 then .Stop else .MoreValues]
      ⟨⟨[1, 2, 3], 2⟩, ⟨[10, 20, 30], 2⟩⟩ [(1, 10), (2, 20)]
      (by decide) (fun _ => ValueResult.MoreValues)).2.1⟩

/-! ## Flatten over slice generators -/

theorem listRun_append {α σ : Type} (out : Sink σ α) :
    ∀ (l1 l2 : List α) (s : σ),
      listRun (l1 ++ l2) out s =
        (if (listRun l1 out s).2.2 = .Stopped
         then ((listRun l1 out s).1 ++ l2, (listRun l1 out s).2.1, .Stopped)
         else listRun l2 out (listRun l1 out s).2.1) := by
  intro l1
  induction l1 with
  | nil => intro l2 s; simp [listRun]
  | cons x rest ih =>
    intro l2 s
    rcases ho : out s x with ⟨s', v⟩
    cases v with
    | Stop =>
      rw [List.cons_append, listRun_cons_stop ho, listRun_cons_stop ho]
      simp
    | MoreValues =>
      rw [List.cons_append, listRun_cons_more ho, listRun_cons_more ho, ih l2 s']

/-- The outer phase of a flatten-over-slices run: pulling outer lists,
converting each to a fresh inner slice generator and draining it is
observably the canonical run of the concatenation, provided the stored
inner generator is exhausted on entry. -/
theorem flatten_source_phase {α σ : Type} (out : Sink σ α) :
    ∀ (LLrem : List (List α)) (oi : Nat) (cur0 : Option (SliceGenerator α)) (s : σ),
      sliceRemOpt cur0 = [] →
      ∃ k cur',
        sliceRunAux (flattenSink SliceGenerator.run SliceGenerator.new out)
            LLrem oi (cur0, s) =
          (oi + k, (cur', (listRun LLrem.flatten out s).2.1),
            (listRun LLrem.flatten out s).2.2) ∧
        sliceRemOpt cur' ++ (LLrem.drop k).flatten = (listRun LLrem.flatten out s).1 := by
  intro LLrem
  induction LLrem with
  | nil =>
    intro oi cur0 s h0
    refine ⟨0, cur0, ?_, ?_⟩
    · simp [sliceRunAux, listRun]
    · simp [h0, listRun]
  | cons l rest ih =>
    intro oi cur0 s h0
    obtain ⟨c, hc1, hc2⟩ := sliceRunAux_listRun out l 0 s
    have hrun : SliceGenerator.run (SliceGenerator.new l) out s =
        (⟨l, 0 + c⟩, (listRun l out s).2.1, (listRun l out s).2.2) := by
      rw [SliceGenerator_run_eq]
      simp only [SliceGenerator.new, List.drop_zero]
      rw [hc1]
    have hflat : (l :: rest).flatten = l ++ rest.flatten := rfl
    rcases hres : (listRun l out s).2.2 with _ | _
    · -- the consumer stopped inside this inner generator
      have hsink : flattenSink SliceGenerator.run SliceGenerator.new out (cur0, s) l =
          ((some ⟨l, 0 + c⟩, (listRun l out s).2.1), .Stop) := by
        simp [flattenSink, hrun, hres]
      refine ⟨1, some ⟨l, 0 + c⟩, ?_, ?_⟩
      · rw [sliceRunAux_cons_stop hsink, hflat, listRun_append out l rest.flatten s,
          if_pos hres]
      · rw [hflat, listRun_append out l rest.flatten s, if_pos hres]
        simp only [sliceRemOpt, sliceRem, List.drop_succ_cons, List.drop_zero]
        rw [Nat.zero_add, ← hc2]
    · -- this inner generator completed; continue with the next outer value
      have hsink : flattenSink SliceGenerator.run SliceGenerator.new out (cur0, s) l =
          ((some ⟨l, 0 + c⟩, (listRun l out s).2.1), .MoreValues) := by
        simp [flattenSink, hrun, hres]
      have hnil : sliceRemOpt (some (⟨l, 0 + c⟩ : SliceGenerator α)) = [] := by
        have := listRun_complete l out s hres
        simp only [sliceRemOpt, sliceRem]
        rw [Nat.zero_add, ← hc2, this]
      obtain ⟨k, cur', hk1, hk2⟩ := ih (oi + 1) (some ⟨l, 0 + c⟩) (listRun l out s).2.1 hnil
      have hnstop : ¬ (listRun l out s).2.2 = .Stopped := by
        rw [hres]
        intro h
        cases h
      refine ⟨k + 1, cur', ?_, ?_⟩
      · rw [sliceRunAux_cons_more hsink, hk1, hflat, listRun_append out l rest.flatten s,
          if_neg hnstop]
        refine Prod.ext ?_ rfl
        simp
        omega
      · rw [hflat, listRun_append out l rest.flatten s, if_neg hnstop, List.drop_succ_cons]
        exact hk2

/-- The flatten-over-slices pipeline is bisimilar to the canonical
producer of its not-yet-delivered values: flatten interleaves its inner
generators without losing, duplicating or reordering anything, for every
consumer. -/
theorem flatten_slices_sim {α : Type} :
    IsSim (flattenSlices (α := α)) (fun F l => l = flatRem F) := by
  intro F l hR σ out s
  subst hR
  dsimp only
  rcases hcur : F.current_generator with _ | c
  · obtain ⟨k, cur', hk1, hk2⟩ := flatten_source_phase out
      (F.source.slice.drop F.source.index) F.source.index none s rfl
    have hsrc : SliceGenerator.run F.source
        (flattenSink SliceGenerator.run SliceGenerator.new out)
        ((none : Option (SliceGenerator α)), s) =
        (⟨F.source.slice, F.source.index + k⟩,
          (cur', (listRun (F.source.slice.drop F.source.index).flatten out s).2.1),
          (listRun (F.source.slice.drop F.source.index).flatten out s).2.2) := by
      rw [SliceGenerator_run_eq, hk1]
    have hFr : flattenSlices F out s =
        (⟨⟨F.source.slice, F.source.index + k⟩, cur'⟩,
          (listRun (F.source.slice.drop F.source.index).flatten out s).2.1,
          (listRun (F.source.slice.drop F.source.index).flatten out s).2.2) := by
      show Flatten.run SliceGenerator.run SliceGenerator.run SliceGenerator.new F out s = _
      rw [Flatten_run_none SliceGenerator.run SliceGenerator.run SliceGenerator.new
        F out s hcur, hsrc]
    have hfr : flatRem F = (F.source.slice.drop F.source.index).flatten := by
      simp [flatRem, hcur, sliceRemOpt]
    rw [hFr, hfr]
    refine ⟨rfl, rfl, ?_⟩
    rw [← hk2]
    simp only [flatRem]
    rw [List.drop_drop]
  · obtain ⟨ci, hci1, hci2⟩ := sliceRunAux_listRun out (c.slice.drop c.index) c.index s
    have hrun : SliceGenerator.run c out s =
        (⟨c.slice, c.index + ci⟩, (listRun (c.slice.drop c.index) out s).2.1,
          (listRun (c.slice.drop c.index) out s).2.2) := by
      rw [SliceGenerator_run_eq, hci1]
    have hfr : flatRem F =
        c.slice.drop c.index ++ (F.source.slice.drop F.source.index).flatten := by
      simp [flatRem, hcur, sliceRemOpt, sliceRem]
    rcases hres : (listRun (c.slice.drop c.index) out s).2.2 with _ | _
    · -- stopped inside the resumed inner generator
      have hFr : flattenSlices F out s =
          (⟨F.source, some ⟨c.slice, c.index + ci⟩⟩,
            (listRun (c.slice.drop c.index) out s).2.1, .Stopped) := by
        show Flatten.run SliceGenerator.run SliceGenerator.run SliceGenerator.new F out s = _
        rw [Flatten_run_some SliceGenerator.run SliceGenerator.run SliceGenerator.new
          F out s c hcur, hrun]
        rw [if_pos (by rw [hres])]
      have hlr : listRun (flatRem F) out s =
          ((listRun (c.slice.drop c.index) out s).1 ++
            (F.source.slice.drop F.source.index).flatten,
            (listRun (c.slice.drop c.index) out s).2.1, .Stopped) := by
        rw [hfr, listRun_append out (c.slice.drop c.index)
          (F.source.slice.drop F.source.index).flatten s, if_pos hres]
      rw [hFr, hlr]
      refine ⟨rfl, rfl, ?_⟩
      simp only [flatRem, sliceRemOpt, sliceRem]
      rw [← List.drop_drop, ← hci2]
    · -- the resumed inner generator completed; pull further outer values
      have hnil : sliceRemOpt (some (⟨c.slice, c.index + ci⟩ : SliceGenerator α)) = [] := by
        simp only [sliceRemOpt, sliceRem]
        rw [← List.drop_drop, ← hci2]
        exact listRun_complete (c.slice.drop c.index) out s hres
      obtain ⟨k, cur', hk1, hk2⟩ := flatten_source_phase out
        (F.source.slice.drop F.source.index) F.source.index
        (some ⟨c.slice, c.index + ci⟩) (listRun (c.slice.drop c.index) out s).2.1 hnil
      have hsrc : SliceGenerator.run F.source
          (flattenSink SliceGenerator.run SliceGenerator.new out)
          (some (⟨c.slice, c.index + ci⟩ : SliceGenerator α),
            (listRun (c.slice.drop c.index) out s).2.1) =
          (⟨F.source.slice, F.source.index + k⟩,
            (cur', (listRun (F.source.slice.drop F.source.index).flatten out
              (listRun (c.slice.drop c.index) out s).2.1).2.1),
            (listRun (F.source.slice.drop F.source.index).flatten out
              (listRun (c.slice.drop c.index) out s).2.1).2.2) := by
        rw [SliceGenerator_run_eq, hk1]
      have hFr : flattenSlices F out s =
          (⟨⟨F.source.slice, F.source.index + k⟩, cur'⟩,
            (listRun (F.source.slice.drop F.source.index).flatten out
              (listRun (c.slice.drop c.index) out s).2.1).2.1,
            (listRun (F.source.slice.drop F.source.index).flatten out
              (listRun (c.slice.drop c.index) out s).2.1).2.2) := by
        show Flatten.run SliceGenerator.run SliceGenerator.run SliceGenerator.new F out s = _
        rw [Flatten_run_some SliceGenerator.run SliceGenerator.run SliceGenerator.new
          F out s c hcur, hrun]
        rw [if_neg (by rw [hres]; intro h; cases h)]
        rw [hsrc]
      have hlr : listRun (flatRem F) out s =
          listRun (F.source.slice.drop F.source.index).flatten out
            (listRun (c.slice.drop c.index) out s).2.1 := by
        rw [hfr, listRun_append out (c.slice.drop c.index)
          (F.source.slice.drop F.source.index).flatten s,
          if_neg (by rw [hres]; intro h; cases h)]
      rw [hFr, hlr]
      refine ⟨rfl, rfl, ?_⟩
      rw [← hk2]
      simp only [flatRem]
      rw [List.drop_drop]

/-! ## The resume loop -/

/-- The resume loop on the canonical sequence generator delivers the whole
sequence and ends `Complete`, whatever the consumer's stop pattern, given
enough fuel. -/
theorem runLoop_listRun {α : Type} (f : List α → ValueResult) :
    ∀ (fuel : Nat) (l log : List α), l.length < fuel →
      runLoop listRun f fuel l log = ([], log ++ l, .Complete) := by
  intro fuel
  induction fuel with
  | zero => intro l log h; omega
  | succ n ih =>
    intro l log h
    rcases hres : (consume f log l).2.2 with _ | _
    · have hstep : runLoop listRun f (n + 1) l log =
          runLoop listRun f n (l.drop (consume f log l).1) (consume f log l).2.1 := by
        rw [runLoop, listRun_histSink f l log]
        dsimp only
        rw [hres]
      have h1 : 1 ≤ (consume f log l).1 := consume_stopped f l log hres
      have h2 : (consume f log l).1 ≤ l.length := consume_le f l log
      have hlen : (l.drop (consume f log l).1).length < n := by
        rw [List.length_drop]
        omega
      rw [hstep, ih _ _ hlen, consume_log, List.append_assoc, List.take_append_drop]
    · rw [runLoop, listRun_histSink f l log]
      dsimp only
      rw [hres]
      have hc : (consume f log l).1 = l.length := consume_complete f l log hres
      rw [consume_log, hc]
      simp

/-- The resume loop observes only the contract behaviour: bisimilar
generators deliver the same history and results through the loop. -/
theorem runLoop_sim {g α : Type} {run : RunFn g α} {R : g → List α → Prop}
    (hsim : IsSim run R) (f : List α → ValueResult) :
    ∀ (fuel : Nat) (x : g) (l log : List α), R x l →
      (runLoop run f fuel x log).2 = (runLoop listRun f fuel l log).2 := by
  intro fuel
  induction fuel with
  | zero => intro x l log _; rfl
  | succ n ih =>
    intro x l log hR
    obtain ⟨h1, h2, h3⟩ := hsim x l hR (histSink f) log
    rw [runLoop, runLoop]
    rcases hres : (listRun l (histSink f) log).2.2 with _ | _
    · dsimp only
      rw [h2, hres, h1]
      exact ih _ _ _ h3
    · dsimp only
      rw [h2, hres, h1]

/-- C8: For S=[[1,2,3,4],[5,6,7,8],[9,10,11,12]], flatten over a slice
generator of inner slice generators delivers [1,..,12] in order under a
resume loop that repeatedly calls run until Complete, for every pattern of
consumer Stop injections (first conjunct: any outer list of lists, any
history-determined stop pattern, any sufficient fuel; second conjunct: the
concrete S).  Third conjunct: whenever the stored inner generator's run
ends Stopped (it has not returned Complete), `Flatten::run` returns with
the outer source untouched — no outer value is converted into a new inner
generator — and the resumed inner generator stored for the next call. -/
theorem flatten_resume_loop :
    (∀ {α : Type} (LL : List (List α)) (f : List α → ValueResult) (fuel : Nat),
        LL.flatten.length < fuel →
        (runLoop flattenSlices f fuel ⟨SliceGenerator.new LL, none⟩ []).2 =
          (LL.flatten, .Complete)) ∧
    (∀ (f : List Nat → ValueResult),
        (runLoop flattenSlices f 13
          ⟨SliceGenerator.new [[1,2,3,4],[5,6,7,8],[9,10,11,12]], none⟩ []).2 =
          ([1,2,3,4,5,6,7,8,9,10,11,12], .Complete)) ∧
    (∀ {src ig β γ σ : Type} (srcRun : RunFn src β) (innerRun : RunFn ig γ)
        (intoGen : β → ig) (F : Flatten src ig) (c : ig)
        (out : Sink σ γ) (s : σ),
        F.current_generator = some c →
        (innerRun c out s).2.2 = .Stopped →
        Flatten.run srcRun innerRun intoGen F out s =
          (⟨F.source, some (innerRun c out s).1⟩, (innerRun c out s).2.1, .Stopped)) := by
  refine ⟨?_, ?_, ?_⟩
  · intro α LL f fuel hfuel
    have hR : LL.flatten = flatRem ⟨SliceGenerator.new LL, none⟩ := rfl
    rw [runLoop_sim flatten_slices_sim f fuel ⟨SliceGenerator.new LL, none⟩ LL.flatten [] hR,
      runLoop_listRun f fuel LL.flatten [] hfuel]
    rfl
  · intro f
    have hR : ([1,2,3,4,5,6,7,8,9,10,11,12] : List Nat) =
        flatRem ⟨SliceGenerator.new [[1,2,3,4],[5,6,7,8],[9,10,11,12]], none⟩ := rfl
    rw [runLoop_sim flatten_slices_sim f 13
        ⟨SliceGenerator.new [[1,2,3,4],[5,6,7,8],[9,10,11,12]], none⟩
        [1,2,3,4,5,6,7,8,9,10,11,12] [] hR,
      runLoop_listRun f 13 [1,2,3,4,5,6,7,8,9,10,11,12] [] (by decide)]
    rfl
  · intro src ig β γ σ srcRun innerRun intoGen F c out s hcur hres
    rw [Flatten_run_some srcRun innerRun intoGen F out s c hcur, if_pos hres]

/-- C8 witness: the concrete resume loop on S with the always-continue
consumer, and the general clause at S with fuel 13, both evaluated. -/
theorem flatten_resume_loop_witness :
    ([[1,2,3,4],[5,6,7,8],[9,10,11,12]] : List (List Nat)).flatten.length < 13 ∧
    (runLoop flattenSlices (fun _ => ValueResult.MoreValues) 13
      (⟨SliceGenerator.new [[1,2,3,4],[5,6,7,8],[9,10,11,12]], none⟩ :
        Flatten (SliceGenerator (List Nat)) (SliceGenerator Nat)) []).2 =
      ([1,2,3,4,5,6,7,8,9,10,11,12], .Complete) :=
  ⟨by decide, flatten_resume_loop.1 [[1,2,3,4],[5,6,7,8],[9,10,11,12]]
    (fun _ => ValueResult.MoreValues) 13 (by decide)⟩

/-! ## The two-cursor reverse slice source -/

theorem SliceGenerator2_run_eq {α σ : Type} (g : SliceGenerator2 α) (out : Sink σ α)
    (s : σ) :
    SliceGenerator2.run g out s =
      ({ slice := g.slice,
         front := (sliceRunAux out ((g.slice.take g.back).drop g.front) g.front s).1,
         back := g.back },
        (sliceRunAux out ((g.slice.take g.back).drop g.front) g.front s).2.1,
        (sliceRunAux out ((g.slice.take g.back).drop g.front) g.front s).2.2) := rfl

theorem SliceGenerator2_runBack_eq {α σ : Type} (g : SliceGenerator2 α) (out : Sink σ α)
    (s : σ) :
    SliceGenerator2.runBack g out s =
      ({ slice := g.slice, front := g.front,
         back := (slice2RunBackAux out ((g.slice.take g.back).drop g.front).reverse g.back s).1 },
        (slice2RunBackAux out ((g.slice.take g.back).drop g.front).reverse g.back s).2.1,
        (slice2RunBackAux out ((g.slice.take g.back).drop g.front).reverse g.back s).2.2) := rfl

theorem slice2RunBackAux_more {α : Type} (l : List α) : ∀ (b : Nat) (log : List α),
    slice2RunBackAux moreSink l b log = (b - l.length, log ++ l, .Complete) := by
  induction l with
  | nil => intro b log; simp [slice2RunBackAux]
  | cons x rest ih =>
    intro b log
    simp only [slice2RunBackAux, moreSink, ih (b - 1) (log ++ [x])]
    refine Prod.ext ?_ (Prod.ext ?_ rfl)
    · simp; omega
    · simp

theorem slice2_boundary {α : Type} (g : SliceGenerator2 α) {σ : Type} (out : Sink σ α)
    (s : σ) (h : g.back ≤ g.front) :
    SliceGenerator2.run g out s = (g, s, .Complete) ∧
    SliceGenerator2.runBack g out s = (g, s, .Complete) := by
  have hseg : (g.slice.take g.back).drop g.front = [] := by
    apply List.drop_eq_nil_of_le
    rw [List.length_take]
    omega
  constructor
  · rw [SliceGenerator2_run_eq, hseg]
    rfl
  · rw [SliceGenerator2_runBack_eq, hseg]
    rfl

/-- C9: the two-cursor slice source implements the reverse contract
symmetrically to the forward one.  First conjunct: whenever the front
cursor meets or passes the back cursor the generator is Complete — both
run and run_back return Complete immediately, cursors and sink state
untouched.  Second conjunct: forward run delivers the slice from the
front cursor upward, run_back delivers it from the back cursor downward.
Third conjunct: after a forward run stopped at the k-th element, run_back
delivers exactly the elements above the front cursor, from the back
downward, completing when the cursors meet at k; the forward prefix and
the reversed backward delivery reassemble the slice exactly, so the
meeting element is never delivered twice.  Fourth conjunct: the
interleaved single-step consumption of the `ReverseGenerator`
documentation example (1, then 6, 5 backward, then 2, 3, 4, then both
directions Complete). -/
theorem slice2_reverse_contract {α : Type} :
    (∀ (g : SliceGenerator2 α) (σ : Type) (out : Sink σ α) (s : σ),
        g.back ≤ g.front →
        SliceGenerator2.run g out s = (g, s, .Complete) ∧
        SliceGenerator2.runBack g out s = (g, s, .Complete)) ∧
    (∀ S : List α,
        SliceGenerator2.run (SliceGenerator2.new S) moreSink [] =
          (⟨S, S.length, S.length⟩, S, .Complete) ∧
        SliceGenerator2.runBack (SliceGenerator2.new S) moreSink [] =
          (⟨S, 0, 0⟩, S.reverse, .Complete)) ∧
    (∀ (S : List α) (k : Nat), 1 ≤ k → k ≤ S.length →
        SliceGenerator2.run (SliceGenerator2.new S) stopAtSink (k, []) =
          (⟨S, k, S.length⟩, (0, S.take k), .Stopped) ∧
        SliceGenerator2.runBack ⟨S, k, S.length⟩ moreSink [] =
          (⟨S, k, k⟩, (S.drop k).reverse, .Complete) ∧
        S.take k ++ ((S.drop k).reverse).reverse = S) ∧
    (SliceGenerator2.run (SliceGenerator2.new [1,2,3,4,5,6]) stopAtSink (1, []) =
        (⟨[1,2,3,4,5,6], 1, 6⟩, (0, [1]), .Stopped) ∧
      SliceGenerator2.runBack (⟨[1,2,3,4,5,6], 1, 6⟩ : SliceGenerator2 Nat)
          stopAtSink (1, []) = (⟨[1,2,3,4,5,6], 1, 5⟩, (0, [6]), .Stopped) ∧
      SliceGenerator2.runBack (⟨[1,2,3,4,5,6], 1, 5⟩ : SliceGenerator2 Nat)
          stopAtSink (1, []) = (⟨[1,2,3,4,5,6], 1, 4⟩, (0, [5]), .Stopped) ∧
      SliceGenerator2.run (⟨[1,2,3,4,5,6], 1, 4⟩ : SliceGenerator2 Nat)
          stopAtSink (1, []) = (⟨[1,2,3,4,5,6], 2, 4⟩, (0, [2]), .Stopped) ∧
      SliceGenerator2.run (⟨[1,2,3,4,5,6], 2, 4⟩ : SliceGenerator2 Nat)
          stopAtSink (1, []) = (⟨[1,2,3,4,5,6], 3, 4⟩, (0, [3]), .Stopped) ∧
      SliceGenerator2.run (⟨[1,2,3,4,5,6], 3, 4⟩ : SliceGenerator2 Nat)
          stopAtSink (1, []) = (⟨[1,2,3,4,5,6], 4, 4⟩, (0, [4]), .Stopped) ∧
      SliceGenerator2.run (⟨[1,2,3,4,5,6], 4, 4⟩ : SliceGenerator2 Nat)
          stopAtSink (1, []) = (⟨[1,2,3,4,5,6], 4, 4⟩, (1, []), .Complete) ∧
      SliceGenerator2.runBack (⟨[1,2,3,4,5,6], 4, 4⟩ : SliceGenerator2 Nat)
          stopAtSink (1, []) = (⟨[1,2,3,4,5,6], 4, 4⟩, (1, []), .Complete)) := by
  refine ⟨fun g σ out s h => slice2_boundary g out s h, ?_, ?_,
    by decide, by decide, by decide, by decide, by decide, by decide, by decide, by decide⟩
  · intro S
    constructor
    · rw [SliceGenerator2_run_eq]
      dsimp only [SliceGenerator2.new]
      rw [List.drop_zero, List.take_length, sliceRunAux_more]
      simp
    · rw [SliceGenerator2_runBack_eq]
      dsimp only [SliceGenerator2.new]
      rw [List.drop_zero, List.take_length, slice2RunBackAux_more]
      simp
  · intro S k hk1 hk2
    refine ⟨?_, ?_, ?_⟩
    · rw [SliceGenerator2_run_eq]
      dsimp only [SliceGenerator2.new]
      rw [List.drop_zero, List.take_length, sliceRunAux_stopAt S k 0 [] hk1 hk2]
      simp
    · rw [SliceGenerator2_runBack_eq]
      dsimp only
      rw [List.take_length, slice2RunBackAux_more]
      simp only [List.length_reverse, List.length_drop, List.nil_append]
      have hkk : S.length - (S.length - k) = k := by omega
      rw [hkk]
    · simp

/-- C9 witness: the split-and-reverse-drain clause at S=[1,2,3], k=2 —
forward stops having delivered [1,2] with the front cursor at 2, run_back
then delivers [3] and completes with the cursors meeting at 2. -/
theorem slice2_reverse_contract_witness :
    1 ≤ 2 ∧ 2 ≤ ([1,2,3] : List Nat).length ∧
    (SliceGenerator2.run (SliceGenerator2.new [1,2,3]) stopAtSink (2, []) =
        (⟨[1,2,3], 2, 3⟩, (0, [1,2]), .Stopped) ∧
      SliceGenerator2.runBack (⟨[1,2,3], 2, 3⟩ : SliceGenerator2 Nat) moreSink [] =
        (⟨[1,2,3], 2, 2⟩, [3], .Complete) ∧
      [1,2] ++ [3] = ([1,2,3] : List Nat)) :=
  ⟨by decide, by decide,
    slice2_reverse_contract.2.2.1 [1,2,3] 2 (by decide) (by decide)⟩

end Pushgen
